import Mathlib

/-!
Verification of the rust-magicq showfile codec.

This file shallowly embeds the parser and serializer of
`src/rust-magicq/src/lib.rs` (the crate root actually compiled and used by
the test suite) together with the divergent pieces of
`src/rust-magicq/src/showfile.rs` (an out-of-tree revision of the same
code; it is not declared as a module of the crate).

Embedding conventions:
* input text is `List Char`; a nom parser `IResult<&str, A, VerboseError>`
  becomes `List Char → Option (A × List Char)`.  The three nom failure
  modes (`Error`, `Failure`, `Incomplete`) are conflated to `none`: for
  every construct of this grammar the distinction never changes whether an
  enclosing parser ultimately succeeds, only which error value is reported,
  and no claim is about error values.
* Rust `u64` becomes `Nat` with the explicit bound `2 ^ 64` where the code
  can overflow (`u64::from_str_radix` in `parse_hex`).
* `f64` values are embedded as `FloatVal`: NaN with its sign bit, infinity
  with its sign bit, or a finite value carried as the exact rational of the
  source literal.  This is faithful to every distinction the program makes
  on floats that the claims mention (NaN sign, finite versus NaN, the
  textual round trip of six-decimal literals); binary rounding of decimal
  literals to doubles is not modelled.
* repetition combinators (`many0`, `many1`, `many_till`) are defined with
  an explicit fuel argument so that all definitions compute by kernel
  reduction; with fuel larger than the input length they agree with the
  unbounded loops because every repeated parser consumes input.
-/

namespace MagicQ

/-- Parser shape: input characters to optional result plus remaining input. -/
def P (α : Type) : Type := List Char → Option (α × List Char)

/-- ASCII hex digit, as accepted by nom `hex_digit1`. -/
def isHexDigitCh (c : Char) : Bool :=
  c.isDigit || ('a' ≤ c && c ≤ 'f') || ('A' ≤ c && c ≤ 'F')

/-- Numeric value of a hex digit character (either case). -/
def hexCharVal (c : Char) : Nat :=
  if c.isDigit then c.toNat - 48
  else if 'a' ≤ c then c.toNat - 87
  else c.toNat - 55

/-- Numeric value of a decimal digit character. -/
def decCharVal (c : Char) : Nat := c.toNat - 48

/-- Most-significant-first digit list to number, base `b`; this is how both
`u64::from_str_radix` and the float mantissa accumulate digits. -/
def digitsVal (b : Nat) (ds : List Nat) : Nat := ds.foldl (fun a d => a * b + d) 0

/-- nom `tag(t)`. -/
def tagP (t : List Char) : P Unit := fun s =>
  if t.isPrefixOf s then some ((), s.drop t.length) else none

/-- nom `tag_no_case(t)` for a lowercase `t` (used inside `double`). -/
def tagNoCase (t : List Char) : List Char → Option (List Char) := fun s =>
  if (s.take t.length).map Char.toLower = t then some (s.drop t.length) else none

/-- nom `character::complete::line_ending`: `\n` or `\r\n`, nothing else. -/
def line_ending : P Unit := fun s =>
  match s with
  | '\n' :: r => some ((), r)
  | '\r' :: '\n' :: r => some ((), r)
  | _ => none

/-- Character that is neither carriage return nor line feed. -/
def notCR_LF (c : Char) : Bool := !(c = '\r' || c = '\n')

/-- The post-scan check of nom `not_line_ending`: a carriage return at the
stop position must be followed by a line feed, otherwise the parser errors. -/
def nleCheck (t r : List Char) : Option (List Char × List Char) :=
  match r with
  | '\r' :: rs =>
    match rs with
    | '\n' :: _ => some (t, r)
    | _ => none
  | _ => some (t, r)

/-- nom `not_line_ending` (complete): consume up to the first line break
(as in the library, by scanning for the first `\r` or `\n`), erroring on a
carriage return that is not followed by a line feed. -/
def not_line_ending : P (List Char) := fun s =>
  nleCheck (s.takeWhile notCR_LF) (s.dropWhile notCR_LF)

/-- nom `take_while1`-style helper for `alphanumeric1` / `hex_digit1` /
`digit1`. -/
def takeWhile1 (p : Char → Bool) : P (List Char) := fun s =>
  match s.takeWhile p with
  | [] => none
  | t => some (t, s.dropWhile p)

/-- nom `alphanumeric1`. -/
def alphanumeric1 : P (List Char) := takeWhile1 Char.isAlphanum

/-- nom `hex_digit1`. -/
def hex_digit1 : P (List Char) := takeWhile1 isHexDigitCh

/-- nom `digit1`. -/
def digit1 : P (List Char) := takeWhile1 Char.isDigit

/-- The field delimiter alternative appearing in `parse_string`,
`parse_float` and `parse_hex`:
`alt((map(tag(","), |_| true), map(peek(tag(";")), |_| false),
map(peek(line_ending), |_| false)))`. -/
def field_delim : P Bool := fun s =>
  match s with
  | ',' :: r => some (true, r)
  | ';' :: r => some (false, ';' :: r)
  | '\n' :: r => some (false, '\n' :: r)
  | '\r' :: '\n' :: r => some (false, '\r' :: '\n' :: r)
  | _ => none

/-- Embedded `f64`: NaN and infinity with sign bit, finite values as the
exact rational denoted by the source literal. -/
inductive FloatVal : Type
  | nan (pos : Bool)
  | inf (pos : Bool)
  | fin (q : Rat)
deriving DecidableEq

/-- The `Value` enum of lib.rs: `Float(f64) | String(String) | Hex(u64, usize)`. -/
inductive Value : Type
  | Float (fl : FloatVal)
  | String (s : List Char)
  | Hex (h : Nat) (w : Nat)
deriving DecidableEq

/-- Value of a recognized float literal: sign, integer digits, fraction
digits, exponent sign and digits (when present). -/
def floatLitVal (neg : Bool) (intd fracd : List Char) (hasExp : Bool)
    (eneg : Bool) (expd : List Char) : Rat :=
  let m : Nat := digitsVal 10 ((intd ++ fracd).map decCharVal)
  let base : Rat := (m : Rat) / ((10 : Rat) ^ fracd.length)
  let e : Nat := digitsVal 10 (expd.map decCharVal)
  let scaled : Rat :=
    if hasExp then (if eneg then base / (10 : Rat) ^ e else base * (10 : Rat) ^ e)
    else base
  if neg then -scaled else scaled

/-- `opt(alt((char('+'), char('-'))))`, returning whether a minus sign was
consumed. -/
def optSign : List Char → Bool × List Char
  | '+' :: r => (false, r)
  | '-' :: r => (true, r)
  | s => (false, s)

/-- Digits of the exponent of nom `recognize_float` (`cut(digit1)`; the cut
failure is conflated with ordinary failure). -/
def floatExpDigits (neg : Bool) (intd fracd : List Char) (eneg : Bool) : P Rat := fun s2 =>
  match s2.takeWhile Char.isDigit with
  | [] => none
  | ed => some (floatLitVal neg intd fracd true eneg ed, s2.dropWhile Char.isDigit)

/-- Exponent tail of nom `recognize_float` after `e`/`E`: optional sign then
digits. -/
def floatExpTail (neg : Bool) (intd fracd : List Char) : P Rat := fun s1 =>
  floatExpDigits neg intd fracd (optSign s1).1 (optSign s1).2

/-- Optional exponent of nom `recognize_float`. -/
def floatAfterMantissa (neg : Bool) (intd fracd : List Char) : P Rat := fun s =>
  match s with
  | 'e' :: s1 => floatExpTail neg intd fracd s1
  | 'E' :: s1 => floatExpTail neg intd fracd s1
  | _ => some (floatLitVal neg intd fracd false false [], s)

/-- The `'.' digit1` mantissa alternative of nom `recognize_float` (taken
when no integer digits were consumed). -/
def rfvNoInt (neg : Bool) : P Rat := fun s1 =>
  match s1 with
  | '.' :: s2 =>
    match s2.takeWhile Char.isDigit with
    | [] => none
    | fr => floatAfterMantissa neg [] fr (s2.dropWhile Char.isDigit)
  | _ => none

/-- The optional `'.' digit0` fraction after `digit1` integer digits. -/
def rfvAfterInt (neg : Bool) (ds : List Char) : P Rat := fun s1 =>
  match s1 with
  | '.' :: s3 =>
    floatAfterMantissa neg ds (s3.takeWhile Char.isDigit) (s3.dropWhile Char.isDigit)
  | s2 => floatAfterMantissa neg ds [] s2

/-- Mantissa and exponent of nom `recognize_float` after the optional sign:
either `digit1` with an optional `'.' digit0`, or `'.' digit1`. -/
def rfvAfterSign (neg : Bool) : P Rat := fun s1 =>
  match s1.takeWhile Char.isDigit with
  | [] => rfvNoInt neg s1
  | ds => rfvAfterInt neg ds (s1.dropWhile Char.isDigit)

/-- nom `recognize_float`, returning the exact rational value of the
recognized literal. -/
def recognize_float_val : P Rat := fun s =>
  rfvAfterSign (optSign s).1 (optSign s).2

/-- nom `number::streaming::double`: `recognize_float` first, then the
case-insensitive exception literals `nan`, `inf`, `infinity` (the last is
unreachable because `inf` matches first), parsed to the corresponding
`f64`.  `"nan".parse::<f64>()` is a positive NaN. -/
def double : P FloatVal := fun s =>
  match recognize_float_val s with
  | some (q, r) => some (FloatVal.fin q, r)
  | none =>
    match tagNoCase ['n', 'a', 'n'] s with
    | some r => some (FloatVal.nan true, r)
    | none =>
      match tagNoCase ['i', 'n', 'f'] s with
      | some r => some (FloatVal.inf true, r)
      | none => none

/-- lib.rs `parse_string`: a quoted string (or the literal `""`) followed by
the field delimiter.  nom `escaped(none_of("\""), '\\', char('\"'))` with
these arguments consumes exactly a nonempty run of non-quote characters
(the control branch is unreachable because `\\` is itself accepted by
`none_of("\"")`) and errors on an empty run, which is why the source keeps
the separate `tag("\"\"")` alternative for empty strings. -/
def parse_string_quoted (r : List Char) : Option ((Value × Bool) × List Char) :=
  match r.takeWhile (fun c => c != '"') with
  | [] =>
    match r with
    | '"' :: r2 => (field_delim r2).map (fun q => ((Value.String [], q.1), q.2))
    | _ => none
  | t =>
    match r.dropWhile (fun c => c != '"') with
    | '"' :: r2 => (field_delim r2).map (fun q => ((Value.String t, q.1), q.2))
    | _ => none

/-- lib.rs `parse_string` (continued): dispatch on the opening quote. -/
def parse_string : P (Value × Bool) := fun s =>
  match s with
  | '"' :: r => parse_string_quoted r
  | _ => none

/-- lib.rs `parse_float`: `alt((double, map(tag("nan"), |_| f64::NAN)))`
followed by the field delimiter.  Note: no `-nan` alternative exists here. -/
def parse_float : P (Value × Bool) := fun s =>
  match (match double s with
         | some fr => some fr
         | none =>
           (tagP ['n', 'a', 'n'] s).map
             (fun (r : Unit × List Char) => (FloatVal.nan true, r.2))) with
  | none => none
  | some (f, r1) =>
    (field_delim r1).map (fun (q : Bool × List Char) => ((Value.Float f, q.1), q.2))

/-- lib.rs `parse_hex`: `hex_digit1` with its consumed length, the field
delimiter, then `u64::from_str_radix` through `map_res` (failing, not
wrapping, on overflow). -/
def parse_hex : P (Value × Bool) := fun s =>
  match hex_digit1 s with
  | none => none
  | some (d, r1) =>
    match field_delim r1 with
    | none => none
    | some (c, r2) =>
      if digitsVal 16 (d.map hexCharVal) < 2 ^ 64 then
        some ((Value.Hex (digitsVal 16 (d.map hexCharVal)) d.length, c), r2)
      else none

/-- lib.rs `csv_field`: `alt((parse_string, parse_hex, parse_float))`. -/
def csv_field : P (Value × Bool) := fun s =>
  match parse_string s with
  | some v => some v
  | none =>
    match parse_hex s with
    | some v => some v
    | none => parse_float s

/-- Fueled `many0`: stops when the inner parser fails (or fuel runs out,
which never happens for consuming parsers given fuel beyond the input
length). -/
def manyF {α : Type} (p : P α) : Nat → List Char → List α × List Char
  | 0, s => ([], s)
  | Nat.succ fuel, s =>
    match p s with
    | none => ([], s)
    | some (a, r) =>
      match manyF p fuel r with
      | (xs, r2) => (a :: xs, r2)

/-- nom `many0 p` for consuming `p`. -/
def many0C {α : Type} (p : P α) : List Char → List α × List Char := fun s =>
  manyF p (s.length + 1) s

/-- nom `many1 p` for consuming `p`. -/
def many1C {α : Type} (p : P α) : P (List α) := fun s =>
  match p s with
  | none => none
  | some (a, r) =>
    match many0C p r with
    | (xs, r2) => some (a :: xs, r2)

/-- `many0(line_ending)` together with the count of consumed line breaks
(`many1` requires the count to be positive at its use sites). -/
def lineEndingRun : List Char → Nat × List Char
  | '\n' :: r =>
    match lineEndingRun r with
    | (n, r2) => (n + 1, r2)
  | '\r' :: '\n' :: r =>
    match lineEndingRun r with
    | (n, r2) => (n + 1, r2)
  | s => (0, s)

/-- The `Row` struct of lib.rs. -/
structure Row : Type where
  values : List Value
  trailing_comma : Bool
  trailing_newlines : Nat
deriving DecidableEq

/-- The `SectionIdentifier` enum of lib.rs. -/
inductive SectionIdentifier : Type
  | Version
  | File
  | Head
  | Fixture
  | Palette
  | Group
  | FX
  | Playback
  | CueStack
  | ExecutePage
  | ExecuteItem
  | Unknown (s : List Char)
deriving DecidableEq

namespace SectionIdentifier

/-- lib.rs `SectionIdentifier::from_code` (a Rust `match` on `&str`, i.e. a
chain of string comparisons with an `Unknown` fallback). -/
def from_code (s : List Char) : SectionIdentifier :=
  if s = ['V'] then Version
  else if s = ['T'] then File
  else if s = ['P'] then Head
  else if s = ['L'] then Fixture
  else if s = ['F'] then Palette
  else if s = ['G'] then Group
  else if s = ['W'] then FX
  else if s = ['S'] then Playback
  else if s = ['C'] then CueStack
  else if s = ['M'] then ExecutePage
  else if s = ['N'] then ExecuteItem
  else Unknown s

/-- lib.rs `SectionIdentifier::to_code`. -/
def to_code : SectionIdentifier → List Char
  | Version => ['V']
  | File => ['T']
  | Head => ['P']
  | Fixture => ['L']
  | Palette => ['F']
  | Group => ['G']
  | FX => ['W']
  | Playback => ['S']
  | CueStack => ['C']
  | ExecutePage => ['M']
  | ExecuteItem => ['N']
  | Unknown s => s

/-- A known (non-`Unknown`) identifier. -/
def isKnown : SectionIdentifier → Prop
  | Unknown _ => False
  | _ => True

instance : DecidablePred isKnown := fun k => by
  cases k <;> simp [isKnown] <;> infer_instance

end SectionIdentifier

/-- The `Section` struct of lib.rs. -/
structure Section : Type where
  identifier : SectionIdentifier
  rows : List Row
  trailing_newlines : Nat
deriving DecidableEq

/-- The `MagicQShowfile` struct of lib.rs. -/
structure MagicQShowfile : Type where
  headers : List (List Char)
  sections : List Section
deriving DecidableEq

/-- The body of lib.rs `parse_header` after the `\\ ` tag:
`not_line_ending` then `line_ending`. -/
def headerAfterTag : P (List Char) := fun r =>
  match not_line_ending r with
  | none => none
  | some (t, r1) =>
    match line_ending r1 with
    | some (_, r2) => some (t, r2)
    | none => none

/-- lib.rs `parse_header`: `delimited(tag("\\ "), not_line_ending, line_ending)`. -/
def parse_header : P (List Char) := fun s =>
  match s with
  | '\\' :: ' ' :: r => headerAfterTag r
  | _ => none

/-- lib.rs `parse_section_identifier`: `map(alphanumeric1, from_code)`. -/
def parse_section_identifier : P SectionIdentifier := fun s =>
  (alphanumeric1 s).map (fun q => (SectionIdentifier.from_code q.1, q.2))

/-- The row terminator of lib.rs `csv_row`:
`alt((map(many1(line_ending), |l| l.len()), map(peek(tag(";")), |_| 0)))`,
packaging the already-parsed fields into a `Row`. -/
def rowTail (vals : List Value) (comma : Bool) : P Row := fun r1 =>
  match lineEndingRun r1 with
  | (0, _) =>
    match r1 with
    | ';' :: _ => some (⟨vals, comma, 0⟩, r1)
    | _ => none
  | (Nat.succ n, r2) => some (⟨vals, comma, n + 1⟩, r2)

/-- lib.rs `csv_row`: `many1(csv_field)` then either a counted run of line
breaks or a lookahead `;`; the trailing-comma flag comes from the last
field's delimiter. -/
def csv_row : P Row := fun s =>
  match many1C csv_field s with
  | none => none
  | some (fs, r1) => rowTail (fs.map Prod.fst) ((fs.map Prod.snd).getLastD false) r1

/-- The body of lib.rs `section_parser` after the identifier and comma:
`many1(csv_row)`, `;`, then `many0(line_ending)` counted. -/
def sectionAfterComma (i : SectionIdentifier) : P Section := fun r2 =>
  match many1C csv_row r2 with
  | none => none
  | some (rows, r3) =>
    match r3 with
    | ';' :: r4 =>
      match lineEndingRun r4 with
      | (n, r5) => some (⟨i, rows, n⟩, r5)
    | _ => none

/-- lib.rs `section_parser` (continued): the comma after the identifier. -/
def sectionAfterIdent (i : SectionIdentifier) : P Section := fun r1 =>
  match r1 with
  | ',' :: r2 => sectionAfterComma i r2
  | _ => none

/-- lib.rs `section_parser` (the Lean name drops the suffix): identifier,
`,`, `many1(csv_row)`, `;`, then `many0(line_ending)` counted. -/
def parse_section : P Section := fun s =>
  match parse_section_identifier s with
  | none => none
  | some (i, r1) => sectionAfterIdent i r1

/-- Fueled `many_till(parse_section, eof)`. -/
def sectionsTillEof : Nat → List Char → Option (List Section × List Char)
  | 0, _ => none
  | Nat.succ fuel, s =>
    match s with
    | [] => some ([], [])
    | _ =>
      match parse_section s with
      | none => none
      | some (sec, r) => (sectionsTillEof fuel r).map (fun q => (sec :: q.1, q.2))

/-- lib.rs `showfile_parser` (the Lean name drops the suffix):
`many1(parse_header)`, `many1(line_ending)` (count discarded), then
`many_till(section_parser, eof)`. -/
def parse_showfile : P MagicQShowfile := fun s =>
  match many1C parse_header s with
  | none => none
  | some (hs, r1) =>
    match lineEndingRun r1 with
    | (0, _) => none
    | (Nat.succ _, r2) =>
      match sectionsTillEof (r2.length + 1) r2 with
      | none => none
      | some (secs, r3) => some (⟨hs, secs⟩, r3)

/-- The fixed line separator of lib.rs `showfile_writer`:
`let line_return = "\r\n";`. -/
def line_return : List Char := ['\r', '\n']

/-- Little-endian base-`b` digit values with fuel (`n` itself is enough). -/
def revDigits (b : Nat) : Nat → Nat → List Nat
  | 0, _ => []
  | Nat.succ fuel, n => if n = 0 then [] else n % b :: revDigits b fuel (n / b)

/-- Lowercase digit character for a digit value below 36. -/
def digitCharLower (d : Nat) : Char :=
  if d < 10 then Char.ofNat (48 + d) else Char.ofNat (87 + d)

/-- Base-`b` rendering of `n`, most significant first, lowercase letters,
with `0` rendered as `"0"` (Rust `{:x}` / decimal formatting). -/
def natDigitChars (b : Nat) (n : Nat) : List Char :=
  if n = 0 then ['0'] else ((revDigits b n n).map digitCharLower).reverse

/-- Zero padding on the left to width `w` (Rust `{:0w$x}` semantics: never
truncates). -/
def leftPadZeros (w : Nat) (d : List Char) : List Char :=
  List.replicate (w - d.length) '0' ++ d

/-- Round a rational to an integer, ties to even (the rounding Rust `{:.6}`
applies to the exact decimal value). -/
def roundHalfEven (x : Rat) : Int :=
  let f := x.floor
  let r := x - (f : Rat)
  if r < 1 / 2 then f else if 1 / 2 < r then f + 1 else if f % 2 = 0 then f else f + 1

/-- Decimal rendering of `n / 10^6`: sign, integer part, dot, exactly six
fraction digits. -/
def fmtFixed6Int (n : Int) : List Char :=
  (if n < 0 then ['-'] else []) ++
    natDigitChars 10 (n.natAbs / 1000000) ++
      '.' :: leftPadZeros 6 (natDigitChars 10 (n.natAbs % 1000000))

/-- Rust `{:.6}` for a finite double modelled as a rational: round the
scaled value to an integer (ties to even) and render it. -/
def fmtFixed6 (q : Rat) : List Char := fmtFixed6Int (roundHalfEven (q * 1000000))

/-- lib.rs `Display for Value`, float case: any NaN prints `nan`
(sign-blind), otherwise `{:.6}`. -/
def fmtFloat : FloatVal → List Char
  | FloatVal.nan _ => ['n', 'a', 'n']
  | FloatVal.inf pos => if pos then ['i', 'n', 'f'] else ['-', 'i', 'n', 'f']
  | FloatVal.fin q => fmtFixed6 q

/-- lib.rs `Display for Value`: floats as above, strings re-quoted verbatim,
hex zero-padded to the recorded width, uppercase exactly when the width is
16. -/
def fmtValue : Value → List Char
  | Value.Float fl => fmtFloat fl
  | Value.String t => '"' :: (t ++ ['"'])
  | Value.Hex h w =>
    if w = 16 then leftPadZeros w ((natDigitChars 16 h).map Char.toUpper)
    else leftPadZeros w (natDigitChars 16 h)

/-- `n` copies of `t`, concatenated. -/
def joinN (n : Nat) (t : List Char) : List Char := (List.replicate n t).flatten

/-- Row emission of lib.rs `showfile_writer`: push each value plus a comma
into the global buffer, pop one character when there is no trailing comma,
then the trailing line breaks.  The pop acts on the whole buffer, exactly
as `sb.pop()` does in the source. -/
def writeRow (sb : List Char) (r : Row) : List Char :=
  let sb1 := r.values.foldl (fun acc v => acc ++ fmtValue v ++ [',']) sb
  let sb2 := if r.trailing_comma then sb1 else sb1.dropLast
  sb2 ++ joinN r.trailing_newlines line_return

/-- Section emission of lib.rs `showfile_writer`. -/
def writeSection (sb : List Char) (sec : Section) : List Char :=
  let sb1 := sb ++ SectionIdentifier.to_code sec.identifier ++ [',']
  let sb2 := sec.rows.foldl writeRow sb1
  sb2 ++ ';' :: joinN sec.trailing_newlines line_return

/-- lib.rs `showfile_writer`: headers, one fixed `\r\n` separator, sections. -/
def showfile_writer (m : MagicQShowfile) : List Char :=
  let sb1 := m.headers.foldl (fun acc h => acc ++ '\\' :: ' ' :: (h ++ line_return)) []
  let sb2 := sb1 ++ line_return
  m.sections.foldl writeSection sb2


end MagicQ


namespace MagicQ.SF

/-- showfile.rs `static LINE_RETURN: &str = "\n";`. -/
def LINE_RETURN : List Char := ['\n']

/-- showfile.rs `Value::parse_float`: like lib.rs but with the extra
`map(tag("-nan"), |_| -f64::NAN)` alternative after `tag("nan")`. -/
def parse_float : P (Value × Bool) := fun s =>
  match (match double s with
         | some fr => some fr
         | none =>
           match tagP ['n', 'a', 'n'] s with
           | some r => some (FloatVal.nan true, r.2)
           | none =>
             (tagP ['-', 'n', 'a', 'n'] s).map
               (fun (r : Unit × List Char) => (FloatVal.nan false, r.2))) with
  | none => none
  | some (f, r1) =>
    (field_delim r1).map (fun (q : Bool × List Char) => ((Value.Float f, q.1), q.2))

/-- showfile.rs `Value::parse`: `alt((parse_string, parse_hex, parse_float))`;
the string and hex alternatives are textually identical to lib.rs and are
shared. -/
def value_parse : P (Value × Bool) := fun s =>
  match parse_string s with
  | some v => some v
  | none =>
    match parse_hex s with
    | some v => some v
    | none => parse_float s

/-- showfile.rs `Display for Value`, float case: NaN prints `nan` or `-nan`
according to `is_sign_positive`. -/
def fmtFloat : FloatVal → List Char
  | FloatVal.nan pos => if pos then ['n', 'a', 'n'] else ['-', 'n', 'a', 'n']
  | FloatVal.inf pos => if pos then ['i', 'n', 'f'] else ['-', 'i', 'n', 'f']
  | FloatVal.fin q => fmtFixed6 q

/-- showfile.rs `Display for Value` (string and hex cases are identical to
lib.rs). -/
def fmtValue : Value → List Char
  | Value.Float fl => fmtFloat fl
  | Value.String t => '"' :: (t ++ ['"'])
  | Value.Hex h w =>
    if w = 16 then leftPadZeros w ((natDigitChars 16 h).map Char.toUpper)
    else leftPadZeros w (natDigitChars 16 h)

end MagicQ.SF

namespace MagicQ

/-! ### Consumption and fuel lemmas -/

/-- A parser that consumes at least one character whenever it succeeds. -/
def Consuming {α : Type} (p : P α) : Prop :=
  ∀ s a r, p s = some (a, r) → r.length < s.length

/-- Splitting a `takeWhile`/`dropWhile` scan at a known boundary: a prefix
all of whose characters satisfy `p` followed by a character that does not. -/
theorem takeWhile_boundary {p : Char → Bool} {a : List Char}
    (ha : ∀ c ∈ a, p c = true) {x : Char} (hx : p x = false) (y : List Char) :
    (a ++ x :: y).takeWhile p = a ∧ (a ++ x :: y).dropWhile p = x :: y := by
  induction a with
  | nil => simp [List.takeWhile, List.dropWhile, hx]
  | cons c cs ih =>
    have hc : p c = true := ha c (by simp)
    have ihh := ih (fun d hd => ha d (by simp [hd]))
    simp [List.takeWhile, List.dropWhile, hc, ihh.1, ihh.2]

/-- `takeWhile` over a list all of whose characters satisfy `p`. -/
theorem takeWhile_all {p : Char → Bool} {a : List Char}
    (ha : ∀ c ∈ a, p c = true) :
    a.takeWhile p = a ∧ a.dropWhile p = [] := by
  induction a with
  | nil => simp
  | cons c cs ih =>
    have hc : p c = true := ha c (by simp)
    have ihh := ih (fun d hd => ha d (by simp [hd]))
    simp [List.takeWhile, List.dropWhile, hc, ihh.1, ihh.2]

theorem takeWhile1_eq {p : Char → Bool} {s t r : List Char}
    (h : takeWhile1 p s = some (t, r)) :
    t = s.takeWhile p ∧ r = s.dropWhile p ∧ t ≠ [] := by
  unfold takeWhile1 at h
  split at h
  · exact absurd h (by simp)
  · rename_i ht0
    simp only [Option.some.injEq, Prod.mk.injEq] at h
    exact ⟨h.1.symm, h.2.symm, fun hn => ht0 (h.1.trans hn)⟩

theorem takeWhile1_split {p : Char → Bool} {s t r : List Char}
    (h : takeWhile1 p s = some (t, r)) : s = t ++ r ∧ t ≠ [] := by
  obtain ⟨ht, hr, hne⟩ := takeWhile1_eq h
  subst ht; subst hr
  exact ⟨(List.takeWhile_append_dropWhile p s).symm, hne⟩

theorem takeWhile1_consuming {p : Char → Bool} {s t r : List Char}
    (h : takeWhile1 p s = some (t, r)) : r.length < s.length := by
  obtain ⟨hs, hne⟩ := takeWhile1_split h
  have hlen : s.length = t.length + r.length := by rw [hs, List.length_append]
  have ht : 0 < t.length := List.length_pos.mpr hne
  omega

theorem takeWhile1_mem {p : Char → Bool} {s t r : List Char}
    (h : takeWhile1 p s = some (t, r)) : ∀ c ∈ t, p c = true := by
  obtain ⟨ht, _, _⟩ := takeWhile1_eq h
  subst ht
  exact fun c hc => List.mem_takeWhile_imp hc

theorem field_delim_le {s : List Char} {c : Bool} {r : List Char}
    (h : field_delim s = some (c, r)) : r.length ≤ s.length := by
  unfold field_delim at h
  split at h <;> simp_all <;> omega

theorem line_ending_consuming {s : List Char} {u : Unit} {r : List Char}
    (h : line_ending s = some (u, r)) : r.length < s.length := by
  unfold line_ending at h
  split at h <;> simp_all <;> omega

theorem dropWhile_length_le (p : Char → Bool) (l : List Char) :
    (l.dropWhile p).length ≤ l.length := by
  have h := congrArg List.length (List.takeWhile_append_dropWhile p l)
  rw [List.length_append] at h
  omega

theorem optSign_le (s : List Char) : ((optSign s).2).length ≤ s.length := by
  unfold optSign
  split <;> simp

theorem floatExpDigits_le {neg : Bool} {a b : List Char} {en : Bool}
    {s : List Char} {q : Rat} {r : List Char}
    (h : floatExpDigits neg a b en s = some (q, r)) : r.length ≤ s.length := by
  unfold floatExpDigits at h
  split at h
  · exact absurd h (by simp)
  · simp only [Option.some.injEq, Prod.mk.injEq] at h
    rw [← h.2]
    exact dropWhile_length_le _ s

theorem floatExpTail_le {neg : Bool} {a b : List Char} {s : List Char} {q : Rat}
    {r : List Char} (h : floatExpTail neg a b s = some (q, r)) :
    r.length ≤ s.length :=
  le_trans (floatExpDigits_le h) (optSign_le s)

theorem floatAfterMantissa_le {neg : Bool} {a b : List Char} {s : List Char}
    {q : Rat} {r : List Char} (h : floatAfterMantissa neg a b s = some (q, r)) :
    r.length ≤ s.length := by
  unfold floatAfterMantissa at h
  split at h
  · exact le_trans (floatExpTail_le h) (by simp)
  · exact le_trans (floatExpTail_le h) (by simp)
  · simp only [Option.some.injEq, Prod.mk.injEq] at h
    rw [← h.2]

theorem takeWhile_dropWhile_length (p : Char → Bool) (l : List Char) :
    (l.takeWhile p).length + (l.dropWhile p).length = l.length := by
  have h := congrArg List.length (List.takeWhile_append_dropWhile p l)
  rw [List.length_append] at h
  exact h

theorem rfvNoInt_lt {neg : Bool} {s1 : List Char} {q : Rat} {r : List Char}
    (h : rfvNoInt neg s1 = some (q, r)) : r.length < s1.length := by
  unfold rfvNoInt at h
  split at h
  · rename_i s2
    split at h
    · exact absurd h (by simp)
    · have hle := floatAfterMantissa_le h
      have hd := dropWhile_length_le Char.isDigit s2
      simp only [List.length_cons]
      omega
  · exact absurd h (by simp)

theorem rfvAfterInt_le {neg : Bool} {ds : List Char} {s1 : List Char} {q : Rat}
    {r : List Char} (h : rfvAfterInt neg ds s1 = some (q, r)) :
    r.length ≤ s1.length := by
  unfold rfvAfterInt at h
  split at h
  · rename_i s3
    have hle := floatAfterMantissa_le h
    have hd := dropWhile_length_le Char.isDigit s3
    simp only [List.length_cons]
    omega
  · exact floatAfterMantissa_le h

theorem rfvAfterSign_lt {neg : Bool} {s1 : List Char} {q : Rat} {r : List Char}
    (h : rfvAfterSign neg s1 = some (q, r)) : r.length < s1.length := by
  unfold rfvAfterSign at h
  split at h
  · exact rfvNoInt_lt h
  · rename_i hne
    have htd := takeWhile_dropWhile_length Char.isDigit s1
    have htpos : 0 < (s1.takeWhile Char.isDigit).length := by
      rcases hq : s1.takeWhile Char.isDigit with _ | ⟨c, cs⟩
      · exact absurd hq hne
      · simp
    have hle := rfvAfterInt_le h
    omega

theorem recognize_float_val_lt {s : List Char} {q : Rat} {r : List Char}
    (h : recognize_float_val s = some (q, r)) : r.length < s.length :=
  lt_of_lt_of_le (rfvAfterSign_lt h) (optSign_le s)

theorem tagNoCase_lt {t s r : List Char} (ht : t ≠ [])
    (h : tagNoCase t s = some r) : r.length < s.length := by
  unfold tagNoCase at h
  split at h
  · rename_i heq
    simp only [Option.some.injEq] at h
    have hlen : ((s.take t.length).map Char.toLower).length = t.length :=
      congrArg List.length heq
    rw [List.length_map, List.length_take] at hlen
    have htpos : 0 < t.length := List.length_pos.mpr ht
    rw [← h, List.length_drop]
    omega
  · exact absurd h (by simp)

theorem tagP_split {t s r : List Char} {u : Unit} (h : tagP t s = some (u, r)) :
    s = t ++ r := by
  unfold tagP at h
  split at h
  · rename_i hpre
    simp only [Option.some.injEq, Prod.mk.injEq] at h
    obtain ⟨v, hv⟩ := (List.isPrefixOf_iff_prefix.mp hpre)
    rw [← h.2, ← hv, List.drop_left]
  · exact absurd h (by simp)

theorem double_lt {s : List Char} {f : FloatVal} {r : List Char}
    (h : double s = some (f, r)) : r.length < s.length := by
  unfold double at h
  split at h
  · rename_i q r0 heq
    simp only [Option.some.injEq, Prod.mk.injEq] at h
    rw [← h.2]
    exact recognize_float_val_lt heq
  · split at h
    · rename_i r0 heq
      simp only [Option.some.injEq, Prod.mk.injEq] at h
      rw [← h.2]
      exact tagNoCase_lt (by simp) heq
    · split at h
      · rename_i r0 heq
        simp only [Option.some.injEq, Prod.mk.injEq] at h
        rw [← h.2]
        exact tagNoCase_lt (by simp) heq
      · exact absurd h (by simp)

theorem parse_string_lt {s : List Char} {v : Value} {c : Bool} {r : List Char}
    (h : parse_string s = some ((v, c), r)) : r.length < s.length := by
  unfold parse_string at h
  split at h
  · rename_i r0
    unfold parse_string_quoted at h
    split at h
    · split at h
      · rename_i r2
        obtain ⟨⟨c2, r3⟩, hd, hinj⟩ := Option.map_eq_some'.mp h
        have hle := field_delim_le hd
        simp only [Prod.mk.injEq] at hinj
        obtain ⟨-, rfl⟩ := hinj
        simp only [List.length_cons]
        omega
      · exact absurd h (by simp)
    · split at h
      · rename_i t ht r2 heq
        obtain ⟨⟨c2, r3⟩, hd, hinj⟩ := Option.map_eq_some'.mp h
        have hle := field_delim_le hd
        have hdl : (r0.dropWhile (fun ch => ch != '"')).length ≤ r0.length :=
          dropWhile_length_le _ r0
        have h2 : r2.length + 1 ≤ r0.length := by rw [heq] at hdl; simpa using hdl
        simp only [Prod.mk.injEq] at hinj
        obtain ⟨-, rfl⟩ := hinj
        simp only [List.length_cons]
        omega
      · exact absurd h (by simp)
  · exact absurd h (by simp)

theorem parse_float_lt {s : List Char} {v : Value} {c : Bool} {r : List Char}
    (h : parse_float s = some ((v, c), r)) : r.length < s.length := by
  unfold parse_float at h
  rcases halt : (match double s with
         | some fr => some fr
         | none =>
           (tagP ['n', 'a', 'n'] s).map
             (fun (r : Unit × List Char) => (FloatVal.nan true, r.2))) with - | ⟨f, r1⟩
  · rw [halt] at h; exact absurd h (by simp)
  · rw [halt] at h
    dsimp only at h
    obtain ⟨⟨c2, r3⟩, hd, hinj⟩ := Option.map_eq_some'.mp h
    have hle := field_delim_le hd
    simp only [Prod.mk.injEq] at hinj
    obtain ⟨-, rfl⟩ := hinj
    have hfl : r1.length < s.length := by
      rcases hdb : double s with - | ⟨f0, r0⟩
      · rw [hdb] at halt
        dsimp only at halt
        obtain ⟨⟨u, r0⟩, htag, hinj2⟩ := Option.map_eq_some'.mp halt
        have hsplit := tagP_split htag
        simp only [Prod.mk.injEq] at hinj2
        rw [← hinj2.2, hsplit]
        simp only [List.length_append, List.length_cons, List.length_nil]
        omega
      · rw [hdb] at halt
        dsimp only at halt
        simp only [Option.some.injEq, Prod.mk.injEq] at halt
        rw [← halt.2]
        exact double_lt hdb
    omega

theorem parse_hex_lt {s : List Char} {v : Value} {c : Bool} {r : List Char}
    (h : parse_hex s = some ((v, c), r)) : r.length < s.length := by
  unfold parse_hex at h
  split at h
  · exact absurd h (by simp)
  · rename_i d r1 hdig
    split at h
    · exact absurd h (by simp)
    · rename_i c2 r2 hdel
      split at h
      · simp only [Option.some.injEq, Prod.mk.injEq] at h
        have h1 := takeWhile1_consuming hdig
        have h2 := field_delim_le hdel
        rw [← h.2]
        omega
      · exact absurd h (by simp)

theorem csv_field_lt {s : List Char} {v : Value} {c : Bool} {r : List Char}
    (h : csv_field s = some ((v, c), r)) : r.length < s.length := by
  unfold csv_field at h
  split at h
  · rename_i v0 heq
    cases v0 with
    | mk vc r0 =>
      cases vc with
      | mk v1 c1 =>
        simp only [Option.some.injEq, Prod.mk.injEq] at h
        obtain ⟨⟨h1, h2⟩, h3⟩ := h
        subst h3
        exact parse_string_lt heq
  · split at h
    · rename_i v0 heq
      cases v0 with
      | mk vc r0 =>
        cases vc with
        | mk v1 c1 =>
          simp only [Option.some.injEq, Prod.mk.injEq] at h
          obtain ⟨⟨h1, h2⟩, h3⟩ := h
          subst h3
          exact parse_hex_lt heq
    · exact parse_float_lt h

theorem csv_field_consuming : Consuming csv_field := by
  intro s a r h
  cases a with
  | mk v c => exact csv_field_lt h

theorem nleCheck_eq {t r t' r' : List Char}
    (h0 : nleCheck t r = some (t', r')) : t' = t ∧ r' = r := by
  unfold nleCheck at h0
  split at h0
  · split at h0
    · simp only [Option.some.injEq, Prod.mk.injEq] at h0
      exact ⟨h0.1.symm, h0.2.symm⟩
    · exact absurd h0 (by simp)
  · simp only [Option.some.injEq, Prod.mk.injEq] at h0
    exact ⟨h0.1.symm, h0.2.symm⟩

theorem not_line_ending_split {s t r : List Char}
    (h : not_line_ending s = some (t, r)) : s = t ++ r := by
  obtain ⟨rfl, rfl⟩ := nleCheck_eq h
  exact (List.takeWhile_append_dropWhile notCR_LF s).symm

theorem headerAfterTag_lt {r0 : List Char} {t : List Char} {r : List Char}
    (h : headerAfterTag r0 = some (t, r)) : r.length < r0.length := by
  unfold headerAfterTag at h
  split at h
  · exact absurd h (by simp)
  · rename_i t1 r1 hnle
    split at h
    · rename_i u r2 hle
      simp only [Option.some.injEq, Prod.mk.injEq] at h
      have h1 : r1.length ≤ r0.length := by
        have := not_line_ending_split hnle
        rw [this, List.length_append]
        omega
      have h2 := line_ending_consuming hle
      rw [← h.2]
      omega
    · exact absurd h (by simp)

theorem parse_header_lt {s : List Char} {t : List Char} {r : List Char}
    (h : parse_header s = some (t, r)) : r.length < s.length := by
  unfold parse_header at h
  split at h
  · rename_i r0
    have h1 := headerAfterTag_lt h
    simp only [List.length_cons]
    omega
  · exact absurd h (by simp)

theorem parse_header_consuming : Consuming parse_header := by
  intro s a r h
  exact parse_header_lt h

theorem lineEndingRun_le (s : List Char) : ((lineEndingRun s).2).length ≤ s.length := by
  induction s using lineEndingRun.induct with
  | case1 r n r2 hmatch ih =>
    rw [hmatch] at ih
    simp at ih
    simp [lineEndingRun, hmatch]
    omega
  | case2 r n r2 hmatch ih =>
    rw [hmatch] at ih
    simp at ih
    simp [lineEndingRun, hmatch]
    omega
  | case3 s h1 h2 => simp [lineEndingRun.eq_def]



theorem manyF_rest_le {α : Type} {p : P α} (hp : Consuming p) :
    ∀ fuel s, ((manyF p fuel s).2).length ≤ s.length := by
  intro fuel
  induction fuel with
  | zero => intro s; simp [manyF]
  | succ f ih =>
    intro s
    unfold manyF
    rcases hp0 : p s with - | ⟨a, r⟩
    · simp
    · have hr := hp s a r hp0
      rcases hq : manyF p f r with ⟨xs, r2⟩
      have := ih r
      rw [hq] at this
      simp at this
      simp [hq]
      omega

theorem manyF_congr {α : Type} {p : P α} (hp : Consuming p) :
    ∀ f1 f2 s, s.length < f1 → s.length < f2 → manyF p f1 s = manyF p f2 s := by
  intro f1
  induction f1 with
  | zero => intro f2 s h1; omega
  | succ f ih =>
    intro f2 s h1 h2
    cases f2 with
    | zero => omega
    | succ g =>
      unfold manyF
      rcases hp0 : p s with - | ⟨a, r⟩
      · rfl
      · have hr := hp s a r hp0
        dsimp only
        rw [ih g r (by omega) (by omega)]

theorem many0C_unfold {α : Type} {p : P α} (hp : Consuming p) (s : List Char) :
    many0C p s =
      (match p s with
       | none => ([], s)
       | some (a, r) =>
         match many0C p r with
         | (xs, r2) => (a :: xs, r2)) := by
  unfold many0C
  rcases hp0 : p s with - | ⟨a, r⟩
  · unfold manyF; rw [hp0]
  · have hr := hp s a r hp0
    unfold manyF
    rw [hp0]
    dsimp only
    rw [manyF_congr hp s.length (r.length + 1) r (by omega) (by omega)]
    rfl

theorem many0C_rest_le {α : Type} {p : P α} (hp : Consuming p) (s : List Char) :
    ((many0C p s).2).length ≤ s.length :=
  manyF_rest_le hp (s.length + 1) s

theorem many1C_inv {α : Type} {p : P α} {s : List Char} {xs : List α}
    {r : List Char} (h : many1C p s = some (xs, r)) :
    ∃ a r0, p s = some (a, r0) ∧ xs = a :: (many0C p r0).1 ∧ r = (many0C p r0).2 := by
  unfold many1C at h
  rcases hp0 : p s with - | ⟨a, r0⟩
  · rw [hp0] at h; exact absurd h (by simp)
  · rw [hp0] at h
    dsimp only at h
    rcases hq : many0C p r0 with ⟨ys, r2⟩
    rw [hq] at h
    simp only [Option.some.injEq, Prod.mk.injEq] at h
    exact ⟨a, r0, rfl, by rw [hq, ← h.1], by rw [hq, ← h.2]⟩

theorem many1C_ne_nil {α : Type} {p : P α} {s : List Char} {xs : List α}
    {r : List Char} (h : many1C p s = some (xs, r)) : xs ≠ [] := by
  obtain ⟨a, r0, -, hxs, -⟩ := many1C_inv h
  rw [hxs]
  simp

theorem many1C_rest_lt {α : Type} {p : P α} (hp : Consuming p) {s : List Char}
    {xs : List α} {r : List Char} (h : many1C p s = some (xs, r)) :
    r.length < s.length := by
  obtain ⟨a, r0, hp0, -, hr⟩ := many1C_inv h
  have h1 := hp s a r0 hp0
  have h2 := many0C_rest_le hp r0
  rw [hr]
  omega

theorem rowTail_le {vals : List Value} {comma : Bool} {r1 : List Char}
    {row : Row} {r : List Char} (h : rowTail vals comma r1 = some (row, r)) :
    r.length ≤ r1.length := by
  unfold rowTail at h
  rcases hq : lineEndingRun r1 with ⟨n, r2⟩
  rw [hq] at h
  have hler := lineEndingRun_le r1
  rw [hq] at hler
  cases n with
  | zero =>
    dsimp only at h
    split at h
    · simp only [Option.some.injEq, Prod.mk.injEq] at h
      rw [← h.2]
    · exact absurd h (by simp)
  | succ m =>
    dsimp only at h
    simp only [Option.some.injEq, Prod.mk.injEq] at h
    rw [← h.2]
    exact hler

theorem csv_row_lt {s : List Char} {row : Row} {r : List Char}
    (h : csv_row s = some (row, r)) : r.length < s.length := by
  unfold csv_row at h
  rcases hm : many1C csv_field s with - | ⟨fs, r1⟩
  · rw [hm] at h; exact absurd h (by simp)
  · rw [hm] at h
    dsimp only at h
    have h1 := many1C_rest_lt csv_field_consuming hm
    have h2 := rowTail_le h
    omega

theorem csv_row_consuming : Consuming csv_row := fun _ _ _ h => csv_row_lt h

theorem parse_section_identifier_lt {s : List Char} {i : SectionIdentifier}
    {r : List Char} (h : parse_section_identifier s = some (i, r)) :
    r.length < s.length := by
  unfold parse_section_identifier alphanumeric1 at h
  obtain ⟨⟨t, r0⟩, htw, hinj⟩ := Option.map_eq_some'.mp h
  simp only [Prod.mk.injEq] at hinj
  rw [← hinj.2]
  exact takeWhile1_consuming htw

theorem sectionAfterComma_lt {i : SectionIdentifier} {r2 : List Char}
    {sec : Section} {r : List Char}
    (h : sectionAfterComma i r2 = some (sec, r)) : r.length < r2.length := by
  unfold sectionAfterComma at h
  split at h
  · exact absurd h (by simp)
  · rename_i rows r3 hrows
    have h2 := many1C_rest_lt csv_row_consuming hrows
    split at h
    · rename_i r4
      rcases hle : lineEndingRun r4 with ⟨n, r5⟩
      rw [hle] at h
      simp only [Option.some.injEq, Prod.mk.injEq] at h
      have h3 := lineEndingRun_le r4
      rw [hle] at h3
      simp only at h3
      rw [← h.2]
      simp only [List.length_cons] at h2
      omega
    · exact absurd h (by simp)

theorem sectionAfterIdent_lt {i : SectionIdentifier} {r1 : List Char}
    {sec : Section} {r : List Char}
    (h : sectionAfterIdent i r1 = some (sec, r)) : r.length < r1.length := by
  unfold sectionAfterIdent at h
  split at h
  · rename_i r2
    have h2 := sectionAfterComma_lt h
    simp only [List.length_cons]
    omega
  · exact absurd h (by simp)

theorem parse_section_lt {s : List Char} {sec : Section} {r : List Char}
    (h : parse_section s = some (sec, r)) : r.length < s.length := by
  unfold parse_section at h
  split at h
  · exact absurd h (by simp)
  · rename_i i r1 hid
    have h1 : r1.length < s.length := parse_section_identifier_lt hid
    have h2 := sectionAfterIdent_lt h
    omega

theorem parse_section_consuming : Consuming parse_section :=
  fun _ _ _ h => parse_section_lt h

theorem sectionsTillEof_congr :
    ∀ f1 f2 s, s.length < f1 → s.length < f2 →
      sectionsTillEof f1 s = sectionsTillEof f2 s := by
  intro f1
  induction f1 with
  | zero => intro f2 s h1; omega
  | succ f ih =>
    intro f2 s h1 h2
    cases f2 with
    | zero => omega
    | succ g =>
      unfold sectionsTillEof
      cases s with
      | nil => rfl
      | cons c cs =>
        rcases hp0 : parse_section (c :: cs) with - | ⟨sec, r⟩
        · rfl
        · have hr := parse_section_lt hp0
          simp only [List.length_cons] at h1 h2 hr
          dsimp only
          rw [ih g r (by omega) (by omega)]

/-! ### Field-parser characterization lemmas -/

theorem parse_hex_inv {s : List Char} {v : Value} {c : Bool} {r : List Char}
    (h : parse_hex s = some ((v, c), r)) :
    v = Value.Hex (digitsVal 16 ((s.takeWhile isHexDigitCh).map hexCharVal))
      ((s.takeWhile isHexDigitCh).length) ∧
    digitsVal 16 ((s.takeWhile isHexDigitCh).map hexCharVal) < 2 ^ 64 ∧
    s.takeWhile isHexDigitCh ≠ [] ∧
    field_delim (s.dropWhile isHexDigitCh) = some (c, r) := by
  unfold parse_hex at h
  split at h
  · exact absurd h (by simp)
  · rename_i d r1 hdig
    obtain ⟨hd, hr1, hne⟩ := takeWhile1_eq (p := isHexDigitCh) hdig
    subst hd; subst hr1
    split at h
    · exact absurd h (by simp)
    · rename_i c2 r2 hdel
      split at h
      · rename_i hlt
        simp only [Option.some.injEq, Prod.mk.injEq] at h
        obtain ⟨⟨hv, hc⟩, hrr⟩ := h
        subst hv; subst hc; subst hrr
        exact ⟨rfl, hlt, hne, hdel⟩
      · exact absurd h (by simp)

theorem parse_hex_overflow {s : List Char}
    (hbig : 2 ^ 64 ≤ digitsVal 16 ((s.takeWhile isHexDigitCh).map hexCharVal)) :
    parse_hex s = none := by
  unfold parse_hex
  split
  · rfl
  · rename_i d r1 hdig
    obtain ⟨hd, hr1, hne⟩ := takeWhile1_eq (p := isHexDigitCh) hdig
    subst hd; subst hr1
    split
    · rfl
    · rename_i c2 r2 hdel
      rw [if_neg (by omega)]

theorem parse_string_none_of_head {s : List Char}
    (h : s.head? ≠ some '"') : parse_string s = none := by
  unfold parse_string
  split
  · exact absurd rfl h
  · rfl

theorem csv_field_of_string {s : List Char} {x : (Value × Bool) × List Char}
    (h : parse_string s = some x) : csv_field s = some x := by
  unfold csv_field
  rw [h]

theorem csv_field_of_hex {s : List Char} {x : (Value × Bool) × List Char}
    (h1 : parse_string s = none) (h2 : parse_hex s = some x) :
    csv_field s = some x := by
  unfold csv_field
  rw [h1, h2]

theorem csv_field_of_float {s : List Char}
    (h1 : parse_string s = none) (h2 : parse_hex s = none) :
    csv_field s = parse_float s := by
  unfold csv_field
  rw [h1, h2]

theorem field_delim_shape {s : List Char} {c : Bool} {r : List Char}
    (h : field_delim s = some (c, r)) :
    (∃ t, s = ',' :: t) ∨ (∃ t, s = ';' :: t) ∨
    (∃ t, s = '\n' :: t) ∨ (∃ t, s = '\r' :: t) := by
  unfold field_delim at h
  split at h
  · exact Or.inl ⟨_, rfl⟩
  · exact Or.inr (Or.inl ⟨_, rfl⟩)
  · exact Or.inr (Or.inr (Or.inl ⟨_, rfl⟩))
  · exact Or.inr (Or.inr (Or.inr ⟨_, rfl⟩))
  · exact absurd h (by simp)

theorem field_delim_head_not_hex {s : List Char} {c : Bool} {r : List Char}
    (h : field_delim s = some (c, r)) :
    ∃ ch t, s = ch :: t ∧ isHexDigitCh ch = false ∧ ch ≠ '"' := by
  rcases field_delim_shape h with ⟨t, rfl⟩ | ⟨t, rfl⟩ | ⟨t, rfl⟩ | ⟨t, rfl⟩ <;>
    exact ⟨_, t, rfl, by decide, by decide⟩

/-- A nonempty all-hex-digit run followed by a field delimiter: `parse_hex`
consumes exactly the run, records its length as the width, and its value;
it succeeds exactly when the value fits in `u64`. -/
theorem parse_hex_exact {d rest : List Char} {c : Bool} {r2 : List Char}
    (hne : d ≠ []) (hhex : ∀ ch ∈ d, isHexDigitCh ch = true)
    (hfit : digitsVal 16 (d.map hexCharVal) < 2 ^ 64)
    (hdel : field_delim rest = some (c, r2)) :
    parse_hex (d ++ rest) =
      some ((Value.Hex (digitsVal 16 (d.map hexCharVal)) d.length, c), r2) := by
  obtain ⟨ch, t, rfl, hch, -⟩ := field_delim_head_not_hex hdel
  obtain ⟨htw, hdw⟩ := takeWhile_boundary (p := isHexDigitCh) hhex hch t
  have hdig : hex_digit1 (d ++ ch :: t) = some (d, ch :: t) := by
    unfold hex_digit1 takeWhile1
    rw [htw, hdw]
    rcases d with - | ⟨d0, ds⟩
    · exact absurd rfl hne
    · rfl
  unfold parse_hex
  rw [hdig]
  dsimp only
  rw [hdel]
  dsimp only
  rw [if_pos hfit]

theorem hex_ne_quote {ch : Char} (h : isHexDigitCh ch = true) : ch ≠ '"' := by
  intro hq
  subst hq
  exact absurd h (by decide)

theorem takeWhile_ne_nil_head {p : Char → Bool} {s : List Char}
    (h : s.takeWhile p ≠ []) : ∃ c0 t, s = c0 :: t ∧ p c0 = true := by
  rcases s with - | ⟨c0, t⟩
  · simp at h
  · by_cases hp : p c0
    · exact ⟨c0, t, rfl, hp⟩
    · rw [List.takeWhile_cons_of_neg hp] at h
      exact absurd rfl h

theorem revDigits_lt {b : Nat} (hb : 2 ≤ b) :
    ∀ f n d, d ∈ revDigits b f n → d < b := by
  intro f
  induction f with
  | zero => intro n d hd; simp [revDigits] at hd
  | succ g ih =>
    intro n d hd
    unfold revDigits at hd
    split at hd
    · simp at hd
    · rcases List.mem_cons.mp hd with rfl | hmem
      · exact Nat.mod_lt _ (by omega)
      · exact ih _ _ hmem

theorem digitCharLower_not_upper {d : Nat} (hd : d < 16) :
    (digitCharLower d).isUpper = false := by
  interval_cases d <;> decide

theorem digitCharLower_toUpper_not_lower {d : Nat} (hd : d < 16) :
    ((digitCharLower d).toUpper).isLower = false := by
  interval_cases d <;> decide

theorem natDigitChars16_not_upper {n : Nat} :
    ∀ ch ∈ natDigitChars 16 n, ch.isUpper = false := by
  intro ch hch
  unfold natDigitChars at hch
  split at hch
  · simp at hch
    subst hch
    decide
  · rw [List.mem_reverse] at hch
    obtain ⟨d, hd, rfl⟩ := List.mem_map.mp hch
    exact digitCharLower_not_upper (revDigits_lt (by omega) _ _ _ hd)

theorem leftPadZeros_mem {w : Nat} {d : List Char} {ch : Char}
    (h : ch ∈ leftPadZeros w d) : ch = '0' ∨ ch ∈ d := by
  unfold leftPadZeros at h
  rcases List.mem_append.mp h with h1 | h2
  · exact Or.inl (List.eq_of_mem_replicate h1)
  · exact Or.inr h2

/-! ### Clean (pop-free) emission and writer decomposition -/

/-- Field texts joined by commas with no trailing comma (what the writer's
push-comma-then-pop dance produces for a row without a trailing comma). -/
def commaSep : List (List Char) → List Char
  | [] => []
  | [x] => x
  | x :: xs => x ++ ',' :: commaSep xs

/-- The text of one row as the serializer is meant to emit it: fields with
commas (trailing comma kept or not), then the trailing line breaks. -/
def rowBytes (r : Row) : List Char :=
  (if r.trailing_comma then ((r.values.map fmtValue).map (fun v => v ++ [','])).flatten
   else commaSep (r.values.map fmtValue)) ++
  joinN r.trailing_newlines line_return

/-- The text of one section: code, comma, rows, terminator, line breaks. -/
def sectionBytes (sec : Section) : List Char :=
  SectionIdentifier.to_code sec.identifier ++ ',' ::
    ((sec.rows.map rowBytes).flatten ++ ';' :: joinN sec.trailing_newlines line_return)

/-- The full document text: header lines, one separator, sections. -/
def showfileBytes (m : MagicQShowfile) : List Char :=
  (m.headers.map (fun h => '\\' :: ' ' :: (h ++ line_return))).flatten ++
    (line_return ++ (m.sections.map sectionBytes).flatten)

theorem foldl_emit_fields (vs : List Value) :
    ∀ sb : List Char,
      vs.foldl (fun acc v => acc ++ fmtValue v ++ [',']) sb =
        sb ++ ((vs.map fmtValue).map (fun v => v ++ [','])).flatten := by
  induction vs with
  | nil => intro sb; simp
  | cons v vt ih =>
    intro sb
    simp only [List.foldl_cons, List.map_cons, List.flatten_cons]
    rw [ih]
    simp

theorem commaSep_concat {xs : List (List Char)} (h : xs ≠ []) :
    (xs.map (fun v => v ++ [','])).flatten = commaSep xs ++ [','] := by
  induction xs with
  | nil => exact absurd rfl h
  | cons x xt ih =>
    rcases xt with - | ⟨y, yt⟩
    · simp [commaSep]
    · rw [List.map_cons, List.flatten_cons, ih (by simp)]
      rw [show commaSep (x :: y :: yt) = x ++ ',' :: commaSep (y :: yt) from rfl]
      simp

theorem writeRow_eq {r : Row} (hne : r.values ≠ []) (sb : List Char) :
    writeRow sb r = sb ++ rowBytes r := by
  unfold writeRow rowBytes
  rw [foldl_emit_fields]
  rcases hc : r.trailing_comma with - | -
  · rw [commaSep_concat (by simpa using hne)]
    simp only [if_false, Bool.false_eq_true]
    rw [← List.append_assoc, List.dropLast_concat]
    simp
  · simp

theorem foldl_writeRow (rows : List Row)
    (hr : ∀ row ∈ rows, row.values ≠ []) :
    ∀ sb : List Char,
      rows.foldl writeRow sb = sb ++ (rows.map rowBytes).flatten := by
  induction rows with
  | nil => intro sb; simp
  | cons row rt ih =>
    intro sb
    rw [List.foldl_cons, writeRow_eq (hr row (by simp)) sb, List.map_cons,
      List.flatten_cons, ih (fun r2 h2 => hr r2 (by simp [h2]))]
    simp

theorem writeSection_eq {sec : Section}
    (hr : ∀ row ∈ sec.rows, row.values ≠ []) (sb : List Char) :
    writeSection sb sec = sb ++ sectionBytes sec := by
  unfold writeSection sectionBytes
  dsimp only
  rw [foldl_writeRow sec.rows hr]
  simp

theorem foldl_writeSection (secs : List Section)
    (hrows : ∀ sec ∈ secs, ∀ row ∈ sec.rows, row.values ≠ []) :
    ∀ sb : List Char,
      secs.foldl writeSection sb = sb ++ (secs.map sectionBytes).flatten := by
  induction secs with
  | nil => intro sb; simp
  | cons sec st ih =>
    intro sb
    rw [List.foldl_cons, writeSection_eq (hrows sec (by simp)) sb, List.map_cons,
      List.flatten_cons, ih (fun s2 hs2 => hrows s2 (by simp [hs2]))]
    simp

theorem showfile_writer_eq {m : MagicQShowfile}
    (hrows : ∀ sec ∈ m.sections, ∀ row ∈ sec.rows, row.values ≠ []) :
    showfile_writer m = showfileBytes m := by
  unfold showfile_writer showfileBytes
  rw [foldl_writeSection m.sections hrows]
  have hhdr : ∀ hs : List (List Char), ∀ sb : List Char,
      hs.foldl (fun acc h => acc ++ '\\' :: ' ' :: (h ++ line_return)) sb =
        sb ++ (hs.map (fun h => '\\' :: ' ' :: (h ++ line_return))).flatten := by
    intro hs
    induction hs with
    | nil => intro sb; simp
    | cons h ht ih =>
      intro sb
      simp only [List.foldl_cons, List.map_cons, List.flatten_cons]
      rw [ih]
      simp
  rw [hhdr]
  simp

/-! ### Digit-string correctness -/

theorem foldl_digits_acc (b : Nat) (ds : List Nat) :
    ∀ a : Nat, ds.foldl (fun a d => a * b + d) a =
      a * b ^ ds.length + Nat.ofDigits b ds.reverse := by
  induction ds with
  | nil => intro a; simp
  | cons d dt ih =>
    intro a
    rw [List.foldl_cons, ih (a * b + d)]
    simp only [List.reverse_cons, List.length_cons]
    rw [Nat.ofDigits_append]
    simp [Nat.ofDigits_singleton, pow_succ, List.length_reverse]
    ring

theorem digitsVal_eq_ofDigits (b : Nat) (ds : List Nat) :
    digitsVal b ds = Nat.ofDigits b ds.reverse := by
  unfold digitsVal
  rw [foldl_digits_acc]
  simp

theorem revDigits_eq_digits {b : Nat} (hb : 2 ≤ b) :
    ∀ f n, n ≤ f → revDigits b f n = Nat.digits b n := by
  intro f
  induction f with
  | zero =>
    intro n hn
    interval_cases n
    simp [revDigits]
  | succ g ih =>
    intro n hn
    unfold revDigits
    by_cases h0 : n = 0
    · subst h0; simp
    · rw [if_neg h0]
      have hdiv : n / b < n := Nat.div_lt_self (Nat.pos_of_ne_zero h0) (by omega)
      rw [ih (n / b) (by omega),
        Nat.digits_def' (by omega : 1 < b) (Nat.pos_of_ne_zero h0)]

theorem digitsVal_natDigitChars {b : Nat} (hb : 2 ≤ b) (f : Char → Nat)
    (hf : ∀ d, d < b → f (digitCharLower d) = d) (n : Nat) :
    digitsVal b ((natDigitChars b n).map f) = n := by
  unfold natDigitChars
  by_cases h0 : n = 0
  · subst h0
    have h1 : f '0' = 0 := hf 0 (by omega)
    simp [digitsVal, h1]
  · rw [if_neg h0]
    rw [List.map_reverse, List.map_map]
    have hmap : (revDigits b n n).map (f ∘ digitCharLower) = revDigits b n n := by
      conv_rhs => rw [← List.map_id (revDigits b n n)]
      exact List.map_congr_left (fun d hd => hf d (revDigits_lt hb n n d hd))
    rw [hmap, digitsVal_eq_ofDigits, List.reverse_reverse,
      revDigits_eq_digits hb n n le_rfl, Nat.ofDigits_digits]

theorem natDigitChars_len_le {b : Nat} (hb : 2 ≤ b) {n w : Nat} (hw : 1 ≤ w)
    (hn : n < b ^ w) : (natDigitChars b n).length ≤ w := by
  unfold natDigitChars
  by_cases h0 : n = 0
  · subst h0; simpa using hw
  · rw [if_neg h0]
    rw [List.length_reverse, List.length_map, revDigits_eq_digits hb n n le_rfl]
    rw [Nat.digits_len b n (by omega) h0]
    have := Nat.log_lt_of_lt_pow h0 hn
    omega

theorem natDigitChars_ne_nil {b n : Nat} : natDigitChars b n ≠ [] := by
  unfold natDigitChars
  by_cases h0 : n = 0
  · subst h0; simp
  · rw [if_neg h0]
    rcases n with - | m
    · exact absurd rfl h0
    · rw [show revDigits b (m + 1) (m + 1) =
          (m + 1) % b :: revDigits b m ((m + 1) / b) from by
        unfold revDigits
        rw [if_neg (by omega)]
        cases m <;> rfl]
      simp

theorem natDigitChars16_all_hex {n : Nat} :
    ∀ ch ∈ natDigitChars 16 n, isHexDigitCh ch = true := by
  intro ch hch
  unfold natDigitChars at hch
  split at hch
  · simp at hch; subst hch; decide
  · rw [List.mem_reverse] at hch
    obtain ⟨d, hd, rfl⟩ := List.mem_map.mp hch
    have := revDigits_lt (by omega : 2 ≤ 16) _ _ _ hd
    interval_cases d <;> decide

theorem natDigitChars16_upper_all_hex {n : Nat} :
    ∀ ch ∈ (natDigitChars 16 n).map Char.toUpper, isHexDigitCh ch = true := by
  intro ch hch
  obtain ⟨c0, hc0, rfl⟩ := List.mem_map.mp hch
  unfold natDigitChars at hc0
  split at hc0
  · simp at hc0; subst hc0; decide
  · rw [List.mem_reverse] at hc0
    obtain ⟨d, hd, rfl⟩ := List.mem_map.mp hc0
    have := revDigits_lt (by omega : 2 ≤ 16) _ _ _ hd
    interval_cases d <;> decide

theorem natDigitChars10_all_digit {n : Nat} :
    ∀ ch ∈ natDigitChars 10 n, Char.isDigit ch = true := by
  intro ch hch
  unfold natDigitChars at hch
  split at hch
  · simp at hch; subst hch; decide
  · rw [List.mem_reverse] at hch
    obtain ⟨d, hd, rfl⟩ := List.mem_map.mp hch
    have := revDigits_lt (by omega : 2 ≤ 10) _ _ _ hd
    interval_cases d <;> decide

theorem foldl_zeros (b : Nat) : ∀ k : Nat,
    (List.replicate k 0).foldl (fun a d => a * b + d) 0 = 0 := by
  intro k
  induction k with
  | zero => rfl
  | succ j ih => simpa [List.replicate_succ] using ih

theorem digitsVal_leftPad {b : Nat} (w : Nat) (d : List Char) (f : Char → Nat)
    (hf0 : f '0' = 0) :
    digitsVal b ((leftPadZeros w d).map f) = digitsVal b (d.map f) := by
  unfold leftPadZeros digitsVal
  rw [List.map_append, List.foldl_append, List.map_replicate, hf0, foldl_zeros]

theorem leftPadZeros_length (w : Nat) (d : List Char) :
    (leftPadZeros w d).length = max w d.length := by
  unfold leftPadZeros
  rw [List.length_append, List.length_replicate]
  omega

theorem leftPadZeros_all {P : Char → Bool} (h0 : P '0' = true) {d : List Char}
    (hd : ∀ c ∈ d, P c = true) {w : Nat} :
    ∀ c ∈ leftPadZeros w d, P c = true := by
  intro c hc
  rcases leftPadZeros_mem hc with rfl | hmem
  · exact h0
  · exact hd c hmem

theorem leftPadZeros_ne_nil {w : Nat} {d : List Char} (h : d ≠ []) :
    leftPadZeros w d ≠ [] := by
  unfold leftPadZeros
  simp [h]

/-! ### Claim C3: NaN handling -/

/-- C3, counterexample: in lib.rs — the crate's compiled parser and
serializer — the field literal `-nan` does not parse at all (`double`
rejects a signed NaN and the only extra alternative is `tag("nan")`), and
`Display for Value` prints every NaN, negative ones included, as `nan`. -/
theorem c3_counterexample :
    csv_field "-nan,".data = none ∧
    fmtValue (Value.Float (FloatVal.nan false)) = "nan".data :=
  ⟨by decide, by decide⟩

/-- C3, amended: parsing `nan` yields a positive NaN that serializes back
to `nan` in both lib.rs and showfile.rs; `-nan`, however, is rejected by the
lib.rs field parser, whose serializer also renders negative NaN as `nan`;
only the out-of-tree showfile.rs variant parses `-nan` to a negative NaN
and serializes it back to `-nan`. -/
theorem c3_nan_sign :
    csv_field "nan,".data = some ((Value.Float (FloatVal.nan true), true), []) ∧
    fmtValue (Value.Float (FloatVal.nan true)) = "nan".data ∧
    csv_field "-nan,".data = none ∧
    fmtValue (Value.Float (FloatVal.nan false)) = "nan".data ∧
    SF.value_parse "nan,".data = some ((Value.Float (FloatVal.nan true), true), []) ∧
    SF.value_parse "-nan,".data = some ((Value.Float (FloatVal.nan false), true), []) ∧
    SF.fmtValue (Value.Float (FloatVal.nan true)) = "nan".data ∧
    SF.fmtValue (Value.Float (FloatVal.nan false)) = "-nan".data :=
  ⟨by decide, by decide, by decide, by decide, by decide, by decide, by decide, by decide⟩

/-! ### Claim C7: section-code mapping -/

set_option maxHeartbeats 1000000 in
/-- C7: `to_code` is a left inverse of `from_code` on all code strings
(known codes map through their enumerated kind, all others through
`Unknown` verbatim), `from_code` is a left inverse of `to_code` on every
known identifier, and a section with an unrecognized code `Z` parses to
`Unknown "Z"` and serializes back with the identical code. -/
theorem c7_section_code_bijection :
    (∀ s : List Char,
      SectionIdentifier.to_code (SectionIdentifier.from_code s) = s) ∧
    (∀ k : SectionIdentifier,
      k.isKnown → SectionIdentifier.from_code (SectionIdentifier.to_code k) = k) ∧
    parse_showfile "\\ h\r\n\r\nZ,00;".data =
      some (⟨[['h']],
        [⟨SectionIdentifier.Unknown ['Z'], [⟨[Value.Hex 0 2], false, 0⟩], 0⟩]⟩, []) ∧
    showfile_writer
      ⟨[['h']], [⟨SectionIdentifier.Unknown ['Z'], [⟨[Value.Hex 0 2], false, 0⟩], 0⟩]⟩ =
      "\\ h\r\n\r\nZ,00;".data := by
  refine ⟨?_, ?_, by decide, by decide⟩
  · intro s
    unfold SectionIdentifier.from_code
    split_ifs <;> first | (subst_vars; rfl) | rfl
  · intro k hk
    cases k with
    | Unknown s => exact hk.elim
    | Version => rfl
    | File => rfl
    | Head => rfl
    | Fixture => rfl
    | Palette => rfl
    | Group => rfl
    | FX => rfl
    | Playback => rfl
    | CueStack => rfl
    | ExecutePage => rfl
    | ExecuteItem => rfl

/-- C7, witness: the two quantified conjuncts at the concrete inputs
`Version` (a known identifier) and the unknown code `Q`. -/
theorem c7_witness :
    SectionIdentifier.from_code (SectionIdentifier.to_code SectionIdentifier.Version) =
      SectionIdentifier.Version ∧
    SectionIdentifier.to_code (SectionIdentifier.from_code ['Q']) = ['Q'] :=
  ⟨c7_section_code_bijection.2.1 SectionIdentifier.Version (by decide),
   c7_section_code_bijection.1 ['Q']⟩

/-! ### Claim C4: hex width and case -/

/-- C4: `parse_hex` records as width the exact count of hex digits
consumed; serialization zero-pads to that width, with uppercase digits
exactly when the width is 16 (no uppercase character ever appears at other
widths and no lowercase character at width 16); parsing `00FF` then
serializing yields `00ff`. -/
theorem c4_hex_width :
    (∀ s v w c r, parse_hex s = some ((Value.Hex v w, c), r) →
      w = (s.takeWhile isHexDigitCh).length) ∧
    (∀ v w, fmtValue (Value.Hex v w) =
      if w = 16 then leftPadZeros w ((natDigitChars 16 v).map Char.toUpper)
      else leftPadZeros w (natDigitChars 16 v)) ∧
    (∀ v w, w ≠ 16 → ∀ ch ∈ fmtValue (Value.Hex v w), ch.isUpper = false) ∧
    (∀ v, ∀ ch ∈ fmtValue (Value.Hex v 16), ch.isLower = false) ∧
    csv_field "00FF,".data = some ((Value.Hex 255 4, true), []) ∧
    fmtValue (Value.Hex 255 4) = "00ff".data := by
  refine ⟨?_, fun v w => rfl, ?_, ?_, by decide, by decide⟩
  · intro s v w c r h
    obtain ⟨hv, -, -, -⟩ := parse_hex_inv h
    injection hv
  · intro v w hw ch hch
    simp only [fmtValue] at hch
    rw [if_neg hw] at hch
    rcases leftPadZeros_mem hch with rfl | hmem
    · decide
    · exact natDigitChars16_not_upper ch hmem
  · intro v ch hch
    simp only [fmtValue] at hch
    rw [if_pos trivial] at hch
    rcases leftPadZeros_mem hch with rfl | hmem
    · decide
    · obtain ⟨c0, hc0, rfl⟩ := List.mem_map.mp hmem
      unfold natDigitChars at hc0
      split at hc0
      · simp at hc0
        subst hc0
        decide
      · rw [List.mem_reverse] at hc0
        obtain ⟨d, hd, rfl⟩ := List.mem_map.mp hc0
        exact digitCharLower_toUpper_not_lower (revDigits_lt (by omega) _ _ _ hd)

/-- C4, witness: the width-recording conjunct at `00FF,` and the
lowercase conjunct at width 4. -/
theorem c4_witness :
    (4 = ("00FF,".data.takeWhile isHexDigitCh).length) ∧
    (∀ ch ∈ fmtValue (Value.Hex 255 4), ch.isUpper = false) :=
  ⟨c4_hex_width.1 "00FF,".data 255 4 true [] (by decide),
   c4_hex_width.2.2.1 255 4 (by decide)⟩

/-! ### Claim C6: field alternative order -/

set_option maxHeartbeats 1000000 in
unseal Rat.mul Rat.inv Rat.add Rat.sub in
/-- C6, counterexample: the field `99999999999999999999,` consists only of
hex digits followed by a valid delimiter, yet it parses as a Float (its
hex value exceeds `u64::MAX`, so the Hex alternative fails and the Float
alternative reads it as the decimal literal). -/
theorem c6_counterexample :
    (∀ ch ∈ "99999999999999999999".data, isHexDigitCh ch = true) ∧
    csv_field "99999999999999999999,".data =
      some ((Value.Float (FloatVal.fin ((10 : Rat) ^ 20 - 1)), true), []) :=
  ⟨by decide, by decide⟩

/-- C6, amended: the field parser commits to the first success of
String, then Hex, then Float; a field of hex digits followed by a valid
delimiter parses as Hex — and never as Float — whenever its numeric value
fits in `u64` (overflowing runs fall through to the Float alternative);
the field parser fails when no variant matches. -/
theorem c6_field_order :
    (∀ s x, parse_string s = some x → csv_field s = some x) ∧
    (∀ s x, parse_string s = none → parse_hex s = some x → csv_field s = some x) ∧
    (∀ s, parse_string s = none → parse_hex s = none → csv_field s = parse_float s) ∧
    (∀ d rest c r2, d ≠ [] → (∀ ch ∈ d, isHexDigitCh ch = true) →
      digitsVal 16 (d.map hexCharVal) < 2 ^ 64 →
      field_delim rest = some (c, r2) →
      csv_field (d ++ rest) =
        some ((Value.Hex (digitsVal 16 (d.map hexCharVal)) d.length, c), r2)) ∧
    (∀ s, parse_string s = none → parse_hex s = none → parse_float s = none →
      csv_field s = none) := by
  refine ⟨fun s x h => csv_field_of_string h,
          fun s x h1 h2 => csv_field_of_hex h1 h2,
          fun s h1 h2 => csv_field_of_float h1 h2, ?_, ?_⟩
  · intro d rest c r2 hne hhex hfit hdel
    have hstr : parse_string (d ++ rest) = none := by
      rcases d with - | ⟨d0, ds⟩
      · exact absurd rfl hne
      · exact parse_string_none_of_head
          (by simpa using hex_ne_quote (hhex d0 (by simp)))
    exact csv_field_of_hex hstr (parse_hex_exact hne hhex hfit hdel)
  · intro s h1 h2 h3
    rw [csv_field_of_float h1 h2, h3]

/-- C6, witness: the hex-priority conjunct at the concrete field `FF,`. -/
theorem c6_witness :
    csv_field ("FF".data ++ ",".data) =
      some ((Value.Hex (digitsVal 16 ("FF".data.map hexCharVal)) "FF".data.length, true), []) :=
  c6_field_order.2.2.2.1 "FF".data ",".data true [] (by decide) (by decide)
    (by decide) (by decide)

/-! ### Claim C10: hex overflow behaviour -/

/-- C10: when the run of hex digits at the head of the input has a value
exceeding `u64::MAX`, the Hex alternative fails (the `u64` conversion
errors out rather than wrapping) and the field parser falls through to the
Float alternative; whenever `parse_hex` succeeds, the recorded width is
exactly the number of hex digits consumed. -/
theorem c10_hex_overflow :
    (∀ s, 2 ^ 64 ≤ digitsVal 16 ((s.takeWhile isHexDigitCh).map hexCharVal) →
      parse_hex s = none ∧ csv_field s = parse_float s) ∧
    (∀ s v w c r, parse_hex s = some ((Value.Hex v w, c), r) →
      w = (s.takeWhile isHexDigitCh).length) := by
  constructor
  · intro s hbig
    have hhx : parse_hex s = none := parse_hex_overflow (by omega)
    refine ⟨hhx, ?_⟩
    have hne : s.takeWhile isHexDigitCh ≠ [] := by
      intro hnil
      rw [hnil] at hbig
      simp [digitsVal] at hbig
    obtain ⟨c0, t, rfl, hp⟩ := takeWhile_ne_nil_head hne
    have hstr : parse_string (c0 :: t) = none :=
      parse_string_none_of_head (by simpa using hex_ne_quote hp)
    exact csv_field_of_float hstr hhx
  · intro s v w c r h
    obtain ⟨hv, -, -, -⟩ := parse_hex_inv h
    injection hv

/-- C10, witness: the 17-digit run `10000000000000000` has hex value
`16^16 = 2^64`, one past `u64::MAX`, so the hex alternative fails and the
field parser hands the input to the float alternative. -/
theorem c10_witness :
    parse_hex "10000000000000000,".data = none ∧
    csv_field "10000000000000000,".data = parse_float "10000000000000000,".data :=
  c10_hex_overflow.1 "10000000000000000,".data (by decide)

/-! ### Claim C5: serializer totality -/

theorem rowTail_inv {vals : List Value} {comma : Bool} {r1 : List Char}
    {row : Row} {r : List Char} (h : rowTail vals comma r1 = some (row, r)) :
    row.values = vals ∧ row.trailing_comma = comma := by
  unfold rowTail at h
  rcases hle : lineEndingRun r1 with ⟨n, r2⟩
  rw [hle] at h
  cases n with
  | zero =>
    dsimp only at h
    split at h
    · simp only [Option.some.injEq, Prod.mk.injEq] at h
      rw [← h.1]
      exact ⟨rfl, rfl⟩
    · exact absurd h (by simp)
  | succ m =>
    dsimp only at h
    simp only [Option.some.injEq, Prod.mk.injEq] at h
    rw [← h.1]
    exact ⟨rfl, rfl⟩

/-- C5: every row the parser can produce holds at least one field, and on
any model satisfying that invariant the imperative writer — whose
`sb.pop()` acts on the whole buffer — coincides with the clean structural
emission `showfileBytes`, in which the pop is confined to the comma it
removes; the writer is a total function by construction. -/
theorem c5_serializer_total :
    (∀ s row rest, csv_row s = some (row, rest) → row.values ≠ []) ∧
    (∀ m : MagicQShowfile,
      (∀ sec ∈ m.sections, ∀ row ∈ sec.rows, row.values ≠ []) →
      showfile_writer m = showfileBytes m) := by
  constructor
  · intro s row rest h
    unfold csv_row at h
    rcases hm : many1C csv_field s with - | ⟨fs, r1⟩
    · rw [hm] at h; exact absurd h (by simp)
    · rw [hm] at h
      dsimp only at h
      have hne := many1C_ne_nil hm
      have hv := (rowTail_inv h).1
      rw [hv]
      simpa using hne
  · intro m hrows
    exact showfile_writer_eq hrows

/-- C5, witness: the parser-side conjunct at the row text `00;` and the
writer-equivalence conjunct at a concrete one-section model. -/
theorem c5_witness :
    (⟨[Value.Hex 0 2], false, 0⟩ : Row).values ≠ [] ∧
    showfile_writer
        ⟨[['h']], [⟨SectionIdentifier.Version, [⟨[Value.Hex 0 2], false, 0⟩], 0⟩]⟩ =
      showfileBytes
        ⟨[['h']], [⟨SectionIdentifier.Version, [⟨[Value.Hex 0 2], false, 0⟩], 0⟩]⟩ :=
  ⟨c5_serializer_total.1 "00;".data ⟨[Value.Hex 0 2], false, 0⟩ ";".data (by decide),
   c5_serializer_total.2
     ⟨[['h']], [⟨SectionIdentifier.Version, [⟨[Value.Hex 0 2], false, 0⟩], 0⟩]⟩
     (by decide)⟩

/-! ### Claim C2: line-ending handling -/

/-- C2, counterexample: an LF-only document parses successfully, yet the
serializer re-emits it with `\r\n` line breaks — the line-ending sequence
is not detected from the source's first line break, and the parsed model
(which contains no line-ending field at all) cannot carry one. -/
theorem c2_counterexample :
    parse_showfile "\\ h\n\nV,00;".data =
      some (⟨[['h']],
        [⟨SectionIdentifier.Version, [⟨[Value.Hex 0 2], false, 0⟩], 0⟩]⟩, []) ∧
    '\r' ∉ "\\ h\n\nV,00;".data ∧
    showfile_writer
        ⟨[['h']], [⟨SectionIdentifier.Version, [⟨[Value.Hex 0 2], false, 0⟩], 0⟩]⟩ =
      "\\ h\r\n\r\nV,00;".data ∧
    "\\ h\r\n\r\nV,00;".data ≠ "\\ h\n\nV,00;".data :=
  ⟨by decide, by decide, by decide, by decide⟩

/-- C2, amended: both line-ending choices are fixed constants — lib.rs's
`showfile_writer` always emits `"\r\n"` and showfile.rs's `LINE_RETURN` is
the static `"\n"` — nothing is detected from the source or stored in the
model: an LF document and its CRLF twin parse to the identical model, and
that model re-serializes with `\r\n`. -/
theorem c2_line_return_fixed :
    line_return = ['\r', '\n'] ∧
    SF.LINE_RETURN = ['\n'] ∧
    parse_showfile "\\ hh\n\nV,01;".data =
      some (⟨[['h', 'h']],
        [⟨SectionIdentifier.Version, [⟨[Value.Hex 1 2], false, 0⟩], 0⟩]⟩, []) ∧
    parse_showfile "\\ hh\r\n\r\nV,01;".data =
      some (⟨[['h', 'h']],
        [⟨SectionIdentifier.Version, [⟨[Value.Hex 1 2], false, 0⟩], 0⟩]⟩, []) ∧
    showfile_writer
        ⟨[['h', 'h']], [⟨SectionIdentifier.Version, [⟨[Value.Hex 1 2], false, 0⟩], 0⟩]⟩ =
      "\\ hh\r\n\r\nV,01;".data :=
  ⟨rfl, rfl, by decide, by decide, by decide⟩

/-! ### Claim C9: header/body separator -/

/-- C9: the count of line breaks between the header block and the first
section is discarded by the parser — two inputs with the same headers and
the same text after the separator run parse identically no matter how long
each run is — and the writer emits exactly one line-ending sequence at
that position (visible in the decomposition of its output). -/
theorem c9_header_separator :
    (∀ s1 s2 hs r1 r1' n n' r2,
      many1C parse_header s1 = some (hs, r1) →
      many1C parse_header s2 = some (hs, r1') →
      lineEndingRun r1 = (n, r2) →
      lineEndingRun r1' = (n', r2) →
      1 ≤ n → 1 ≤ n' →
      parse_showfile s1 = parse_showfile s2) ∧
    (∀ m : MagicQShowfile,
      (∀ sec ∈ m.sections, ∀ row ∈ sec.rows, row.values ≠ []) →
      showfile_writer m =
        (m.headers.map (fun h => '\\' :: ' ' :: (h ++ line_return))).flatten ++
          (line_return ++ (m.sections.map sectionBytes).flatten)) := by
  constructor
  · intro s1 s2 hs r1 r1' n n' r2 hm1 hm2 hle1 hle2 hn hn'
    unfold parse_showfile
    rw [hm1, hm2]
    dsimp only
    rw [hle1, hle2]
    cases n with
    | zero => omega
    | succ k =>
      cases n' with
      | zero => omega
      | succ k' => rfl
  · intro m hrows
    exact showfile_writer_eq hrows

/-- C9, witness: three separator line breaks versus one parse to the same
result, and the writer decomposition at a concrete model. -/
theorem c9_witness :
    parse_showfile "\\ h\n\n\n\nV,00;".data = parse_showfile "\\ h\n\nV,00;".data ∧
    showfile_writer
        ⟨[['h']], [⟨SectionIdentifier.Version, [⟨[Value.Hex 0 2], false, 0⟩], 0⟩]⟩ =
      ([['h']].map (fun h => '\\' :: ' ' :: (h ++ line_return))).flatten ++
        (line_return ++
          ([⟨SectionIdentifier.Version, [⟨[Value.Hex 0 2], false, 0⟩], 0⟩].map
            sectionBytes).flatten) :=
  ⟨c9_header_separator.1 "\\ h\n\n\n\nV,00;".data "\\ h\n\nV,00;".data
      [['h']] "\n\n\nV,00;".data "\nV,00;".data 3 1 "V,00;".data
      (by decide) (by decide) (by decide) (by decide) (by decide) (by decide),
   c9_header_separator.2
     ⟨[['h']], [⟨SectionIdentifier.Version, [⟨[Value.Hex 0 2], false, 0⟩], 0⟩]⟩
     (by decide)⟩

/-! ### Claim C8: row grammar -/

theorem lineEndingRun_head_of_pos {r1 : List Char} {m : Nat} {r2 : List Char}
    (h : lineEndingRun r1 = (m + 1, r2)) : r1.head? ≠ some ';' := by
  intro hh
  rcases r1 with - | ⟨c0, t⟩
  · simp at hh
  · simp only [List.head?_cons, Option.some.injEq] at hh
    subst hh
    rw [show lineEndingRun (';' :: t) = (0, ';' :: t) from rfl] at h
    exact absurd (congrArg Prod.fst h) (by simp)

/-- C8: a successful `csv_row` comes from `many1(csv_field)` (so at least
one field: a zero-field row is not representable); the trailing-comma flag
is the comma flag of the last parsed field; the trailing-newline count is
the number of line breaks consumed after the fields, and it is `0` exactly
when the section terminator `;` immediately follows the last field. -/
theorem c8_row_grammar :
    ∀ s row rest, csv_row s = some (row, rest) →
      ∃ fs r1, many1C csv_field s = some (fs, r1) ∧
        row.values = fs.map Prod.fst ∧ 0 < row.values.length ∧
        (∃ flast, fs.getLast? = some flast ∧ row.trailing_comma = flast.2) ∧
        row.trailing_newlines = (lineEndingRun r1).1 ∧
        (row.trailing_newlines = 0 ↔ r1.head? = some ';') ∧
        rest = (if row.trailing_newlines = 0 then r1 else (lineEndingRun r1).2) := by
  intro s row rest h
  unfold csv_row at h
  rcases hm : many1C csv_field s with - | ⟨fs, r1⟩
  · rw [hm] at h; exact absurd h (by simp)
  · rw [hm] at h
    dsimp only at h
    have hne := many1C_ne_nil hm
    have hlast : ∃ flast, fs.getLast? = some flast ∧
        (fs.map Prod.snd).getLastD false = flast.2 := by
      rcases hg : fs.getLast? with - | flast
      · exact absurd (List.getLast?_eq_none_iff.mp hg) hne
      · refine ⟨flast, rfl, ?_⟩
        rw [List.getLastD_eq_getLast?, List.getLast?_map, hg]
        rfl
    obtain ⟨flast, hg, hgd⟩ := hlast
    unfold rowTail at h
    rcases hle : lineEndingRun r1 with ⟨n, r2⟩
    rw [hle] at h
    cases n with
    | zero =>
      dsimp only at h
      split at h
      · rename_i t
        simp only [Option.some.injEq, Prod.mk.injEq] at h
        obtain ⟨hrow, hrest⟩ := h
        subst hrow
        subst hrest
        refine ⟨fs, ';' :: t, rfl, rfl, by simpa using List.length_pos.mpr hne,
          ⟨flast, hg, hgd⟩, ?_, by simp, by simp⟩
        rw [hle]
      · exact absurd h (by simp)
    | succ m =>
      dsimp only at h
      simp only [Option.some.injEq, Prod.mk.injEq] at h
      obtain ⟨hrow, hrest⟩ := h
      subst hrow
      subst hrest
      refine ⟨fs, r1, rfl, rfl, by simpa using List.length_pos.mpr hne,
        ⟨flast, hg, hgd⟩, ?_, ?_, ?_⟩
      · rw [hle]
      · constructor
        · intro h0; exact absurd h0 (Nat.succ_ne_zero m)
        · intro hh; exact absurd hh (lineEndingRun_head_of_pos hle)
      · rw [if_neg (Nat.succ_ne_zero m), hle]

/-- C8, witness: the row grammar facts at the concrete row text `00;`. -/
theorem c8_witness :
    ∃ fs r1, many1C csv_field "00;".data = some (fs, r1) ∧
      (⟨[Value.Hex 0 2], false, 0⟩ : Row).values = fs.map Prod.fst ∧
      0 < (⟨[Value.Hex 0 2], false, 0⟩ : Row).values.length ∧
      (∃ flast, fs.getLast? = some flast ∧
        (⟨[Value.Hex 0 2], false, 0⟩ : Row).trailing_comma = flast.2) ∧
      (⟨[Value.Hex 0 2], false, 0⟩ : Row).trailing_newlines = (lineEndingRun r1).1 ∧
      ((⟨[Value.Hex 0 2], false, 0⟩ : Row).trailing_newlines = 0 ↔
        r1.head? = some ';') ∧
      ";".data =
        (if (⟨[Value.Hex 0 2], false, 0⟩ : Row).trailing_newlines = 0 then r1
         else (lineEndingRun r1).2) :=
  c8_row_grammar "00;".data ⟨[Value.Hex 0 2], false, 0⟩ ";".data (by decide)

/-! ### Print-then-parse: building blocks -/

theorem hexCharVal_digitCharLower {d : Nat} (hd : d < 16) :
    hexCharVal (digitCharLower d) = d := by
  interval_cases d <;> decide

theorem hexCharVal_upper {d : Nat} (hd : d < 16) :
    hexCharVal ((digitCharLower d).toUpper) = d := by
  interval_cases d <;> decide

theorem decCharVal_digitCharLower {d : Nat} (hd : d < 10) :
    decCharVal (digitCharLower d) = d := by
  interval_cases d <;> decide

theorem digitsVal_append (b : Nat) (x y : List Nat) :
    digitsVal b (x ++ y) = digitsVal b x * b ^ y.length + digitsVal b y := by
  unfold digitsVal
  rw [List.foldl_append, foldl_digits_acc, ← digitsVal_eq_ofDigits]
  rfl

/-- Format facts for a canonical hex value: nonempty, all hex digits, the
numeric value is recovered, and the length is exactly the recorded width. -/
theorem fmtHex_spec {v w : Nat} (hw : 1 ≤ w) (hvw : v < 16 ^ w) :
    fmtValue (Value.Hex v w) ≠ [] ∧
    (∀ ch ∈ fmtValue (Value.Hex v w), isHexDigitCh ch = true) ∧
    digitsVal 16 ((fmtValue (Value.Hex v w)).map hexCharVal) = v ∧
    (fmtValue (Value.Hex v w)).length = w := by
  have hlen : (natDigitChars 16 v).length ≤ w :=
    natDigitChars_len_le (by omega) hw hvw
  by_cases h16 : w = 16
  · subst h16
    rw [show fmtValue (Value.Hex v 16) =
        leftPadZeros 16 ((natDigitChars 16 v).map Char.toUpper) from rfl]
    refine ⟨leftPadZeros_ne_nil (by simpa using natDigitChars_ne_nil), ?_, ?_, ?_⟩
    · exact leftPadZeros_all (by decide) natDigitChars16_upper_all_hex
    · rw [digitsVal_leftPad _ _ _ (by decide), List.map_map]
      exact digitsVal_natDigitChars (by omega) _
        (fun d hd => hexCharVal_upper hd) v
    · rw [leftPadZeros_length, List.length_map]
      omega
  · rw [show fmtValue (Value.Hex v w) =
        if w = 16 then leftPadZeros w ((natDigitChars 16 v).map Char.toUpper)
        else leftPadZeros w (natDigitChars 16 v) from rfl, if_neg h16]
    refine ⟨leftPadZeros_ne_nil natDigitChars_ne_nil, ?_, ?_, ?_⟩
    · exact leftPadZeros_all (by decide) natDigitChars16_all_hex
    · rw [digitsVal_leftPad _ _ _ (by decide)]
      exact digitsVal_natDigitChars (by omega) _
        (fun d hd => hexCharVal_digitCharLower hd) v
    · rw [leftPadZeros_length]
      omega

theorem optSign_of_head {c0 : Char} (h1 : c0 ≠ '+') (h2 : c0 ≠ '-')
    (l : List Char) : optSign (c0 :: l) = (false, c0 :: l) := by
  rw [optSign.eq_def]
  split
  · rename_i heq
    rw [List.cons.injEq] at heq
    exact absurd heq.1 h1
  · rename_i heq
    rw [List.cons.injEq] at heq
    exact absurd heq.1 h2
  · rfl

theorem lineEndingRun_zero_of_head {c0 : Char} (h1 : c0 ≠ '\n') (h2 : c0 ≠ '\r')
    (l : List Char) : lineEndingRun (c0 :: l) = (0, c0 :: l) := by
  rw [lineEndingRun.eq_def]
  split
  · rename_i heq
    rw [List.cons.injEq] at heq
    exact absurd heq.1 h1
  · rename_i heq
    rw [List.cons.injEq] at heq
    exact absurd heq.1 h2
  · rfl

theorem lineEndingRun_join (rest : List Char) :
    ∀ n : Nat, lineEndingRun (joinN n line_return ++ rest) =
      ((lineEndingRun rest).1 + n, (lineEndingRun rest).2) := by
  intro n
  induction n with
  | zero => simp [joinN]
  | succ k ih =>
    rw [show joinN (k + 1) line_return = '\r' :: '\n' :: joinN k line_return from by
      unfold joinN line_return
      rw [List.replicate_succ]
      rfl]
    rw [List.cons_append, List.cons_append]
    rw [show lineEndingRun ('\r' :: '\n' :: (joinN k line_return ++ rest)) =
        ((lineEndingRun (joinN k line_return ++ rest)).1 + 1,
         (lineEndingRun (joinN k line_return ++ rest)).2) from by
      rw [lineEndingRun.eq_def]
      rfl]
    rw [ih]
    show ((lineEndingRun rest).1 + k + 1, (lineEndingRun rest).2) =
      ((lineEndingRun rest).1 + (k + 1), (lineEndingRun rest).2)
    rw [Nat.add_assoc]

/-! ### Canonical models -/

/-- A float value the serializer can render and the parser read back
identically: positive NaN (printed `nan`, re-read by the `tag("nan")`
exception), positive infinity (printed `inf` by `{:.6}`, re-read by nom
`double`'s case-insensitive `inf` exception; `-inf` does not re-parse, as
`recognize_float` rejects a sign followed by letters), or a finite value
with an exact six-decimal representation. -/
def floatCanonicalB : FloatVal → Bool
  | FloatVal.nan pos => pos
  | FloatVal.inf pos => pos
  | FloatVal.fin q => (q * 1000000).den == 1

/-- A field value whose rendering re-parses to itself: strings without a
quote character, hex values that fit both `u64` and their recorded width,
canonical floats. -/
def valueCanonicalB : Value → Bool
  | Value.String t => decide ('"' ∉ t)
  | Value.Hex v w => decide (1 ≤ w) && decide (v < 2 ^ 64) && decide (v < 16 ^ w)
  | Value.Float fl => floatCanonicalB fl

/-- Simple delimiter and failure facts used when re-parsing writer output. -/
theorem field_delim_comma_eq (t : List Char) :
    field_delim (',' :: t) = some (true, t) := rfl

theorem field_delim_semi_eq (t : List Char) :
    field_delim (';' :: t) = some (false, ';' :: t) := rfl

theorem field_delim_crlf_eq (t : List Char) :
    field_delim ('\r' :: '\n' :: t) = some (false, '\r' :: '\n' :: t) := rfl

theorem csv_field_semi (t : List Char) : csv_field (';' :: t) = none := rfl

theorem csv_field_crlf (t : List Char) : csv_field ('\r' :: '\n' :: t) = none := rfl

theorem csv_row_semi (t : List Char) : csv_row (';' :: t) = none := rfl

theorem parse_string_print {t : List Char} (ht : '"' ∉ t) {rest : List Char}
    {c : Bool} {r2 : List Char} (hdel : field_delim rest = some (c, r2)) :
    parse_string ('"' :: ((t ++ ['"']) ++ rest)) = some ((Value.String t, c), r2) := by
  have hshape : (t ++ ['"']) ++ rest = t ++ '"' :: rest := by simp
  rw [hshape]
  rcases t with - | ⟨c0, ct⟩
  · rw [show parse_string ('"' :: ([] ++ '"' :: rest)) =
        (field_delim rest).map
          (fun (q : Bool × List Char) => ((Value.String [], q.1), q.2)) from rfl,
      hdel]
    rfl
  · have hall : ∀ ch ∈ c0 :: ct, (ch != '"') = true := by
      intro ch hch
      have : ch ≠ '"' := fun hq => ht (hq ▸ hch)
      simpa using this
    have hbd := takeWhile_boundary (p := fun ch => ch != '"') hall
      (x := '"') (by simp) rest
    rw [show parse_string ('"' :: (c0 :: ct ++ '"' :: rest)) =
        parse_string_quoted (c0 :: ct ++ '"' :: rest) from rfl]
    unfold parse_string_quoted
    rw [hbd.1]
    dsimp only
    rw [hbd.2]
    show (field_delim rest).map
        (fun (q : Bool × List Char) => ((Value.String (c0 :: ct), q.1), q.2)) =
      some ((Value.String (c0 :: ct), c), r2)
    rw [hdel]
    rfl

theorem csv_field_print_string {t : List Char} (ht : '"' ∉ t) {rest : List Char}
    {c : Bool} {r2 : List Char} (hdel : field_delim rest = some (c, r2)) :
    csv_field (fmtValue (Value.String t) ++ rest) =
      some ((Value.String t, c), r2) := by
  have h := parse_string_print ht hdel
  exact csv_field_of_string (by simpa [fmtValue, List.append_assoc] using h)

theorem csv_field_print_hex {v w : Nat} (hw : 1 ≤ w) (hv64 : v < 2 ^ 64)
    (hvw : v < 16 ^ w) {rest : List Char} {c : Bool} {r2 : List Char}
    (hdel : field_delim rest = some (c, r2)) :
    csv_field (fmtValue (Value.Hex v w) ++ rest) = some ((Value.Hex v w, c), r2) := by
  obtain ⟨hne, hall, hval, hlen⟩ := fmtHex_spec hw hvw
  have hhex := parse_hex_exact hne hall (by rw [hval]; exact hv64) hdel
  rw [hval, hlen] at hhex
  refine csv_field_of_hex ?_ hhex
  rcases hf : fmtValue (Value.Hex v w) with - | ⟨c0, l⟩
  · exact absurd hf hne
  · rw [List.cons_append]
    refine parse_string_none_of_head ?_
    have hc0 := hall c0 (by rw [hf]; simp)
    simpa using hex_ne_quote hc0

theorem csv_field_print_nan {rest : List Char} {c : Bool} {r2 : List Char}
    (hdel : field_delim rest = some (c, r2)) :
    csv_field (fmtValue (Value.Float (FloatVal.nan true)) ++ rest) =
      some ((Value.Float (FloatVal.nan true), c), r2) := by
  show csv_field ('n' :: 'a' :: 'n' :: rest) = _
  have h1 : parse_string ('n' :: 'a' :: 'n' :: rest) = none := rfl
  have h2 : parse_hex ('n' :: 'a' :: 'n' :: rest) = none := rfl
  rw [csv_field_of_float h1 h2]
  unfold parse_float
  rw [show double ('n' :: 'a' :: 'n' :: rest) = some (FloatVal.nan true, rest) from rfl]
  dsimp only
  rw [hdel]
  rfl

theorem csv_field_print_inf {rest : List Char} {c : Bool} {r2 : List Char}
    (hdel : field_delim rest = some (c, r2)) :
    csv_field (fmtValue (Value.Float (FloatVal.inf true)) ++ rest) =
      some ((Value.Float (FloatVal.inf true), c), r2) := by
  show csv_field ('i' :: 'n' :: 'f' :: rest) = _
  have h1 : parse_string ('i' :: 'n' :: 'f' :: rest) = none := rfl
  have h2 : parse_hex ('i' :: 'n' :: 'f' :: rest) = none := rfl
  rw [csv_field_of_float h1 h2]
  unfold parse_float
  rw [show double ('i' :: 'n' :: 'f' :: rest) = some (FloatVal.inf true, rest) from rfl]
  dsimp only
  rw [hdel]
  rfl

/-! ### Re-parsing a rendered finite float -/

theorem field_delim_dot (t : List Char) : field_delim ('.' :: t) = none := rfl

theorem parse_hex_dash (t : List Char) : parse_hex ('-' :: t) = none := rfl

theorem field_delim_head_traits {s : List Char} {c : Bool} {r : List Char}
    (h : field_delim s = some (c, r)) :
    ∃ ch t, s = ch :: t ∧ Char.isDigit ch = false ∧ ch ≠ 'e' ∧ ch ≠ 'E' ∧
      ch ≠ '+' ∧ ch ≠ '-' := by
  rcases field_delim_shape h with ⟨t, rfl⟩ | ⟨t, rfl⟩ | ⟨t, rfl⟩ | ⟨t, rfl⟩ <;>
    exact ⟨_, t, rfl, by decide, by decide, by decide, by decide, by decide⟩

theorem floatAfterMantissa_default {neg : Bool} {a b : List Char} {ch : Char}
    (h1 : ch ≠ 'e') (h2 : ch ≠ 'E') (t : List Char) :
    floatAfterMantissa neg a b (ch :: t) =
      some (floatLitVal neg a b false false [], ch :: t) := by
  unfold floatAfterMantissa
  split
  · rename_i heq
    rw [List.cons.injEq] at heq
    exact absurd heq.1 h1
  · rename_i heq
    rw [List.cons.injEq] at heq
    exact absurd heq.1 h2
  · rfl

theorem rfvAfterInt_dot (neg : Bool) (ds s3 : List Char) :
    rfvAfterInt neg ds ('.' :: s3) =
      floatAfterMantissa neg ds (s3.takeWhile Char.isDigit)
        (s3.dropWhile Char.isDigit) := rfl

/-- Re-parsing `intC.fracC` followed by a non-digit, non-exponent character:
the mantissa is consumed exactly and yields the literal's value. -/
theorem rfvAfterSign_print (neg : Bool) {intC fracC : List Char}
    (hine : intC ≠ []) (hiall : ∀ ch ∈ intC, Char.isDigit ch = true)
    (hfall : ∀ ch ∈ fracC, Char.isDigit ch = true)
    {ch : Char} (hchd : Char.isDigit ch = false) (hche : ch ≠ 'e')
    (hchE : ch ≠ 'E') (t : List Char) :
    rfvAfterSign neg (intC ++ '.' :: (fracC ++ ch :: t)) =
      some (floatLitVal neg intC fracC false false [], ch :: t) := by
  obtain ⟨hbd1, hbd2⟩ :=
    takeWhile_boundary (p := Char.isDigit) hiall (x := '.') (by decide)
      (fracC ++ ch :: t)
  obtain ⟨hfw1, hfw2⟩ := takeWhile_boundary (p := Char.isDigit) hfall hchd t
  unfold rfvAfterSign
  rw [hbd1, hbd2]
  rcases intC with - | ⟨i0, it⟩
  · exact absurd rfl hine
  · dsimp only
    rw [rfvAfterInt_dot, hfw1, hfw2]
    exact floatAfterMantissa_default hche hchE t

theorem roundHalfEven_of_den_one {x : Rat} (hx : x.den = 1) :
    roundHalfEven x = x.num := by
  have hxq : (x.num : Rat) = x := by
    rw [← Rat.num_div_den x, hx]
    simp
  have hfl : x.floor = x.num := by
    rw [Rat.floor_def', hx]
    simp
  unfold roundHalfEven
  rw [hfl]
  dsimp only
  rw [show x - ((x.num : Int) : Rat) = 0 from by rw [hxq]; ring]
  rw [if_pos (by norm_num)]

theorem fracLen6 (k : Nat) :
    (leftPadZeros 6 (natDigitChars 10 (k % 1000000))).length = 6 := by
  rw [leftPadZeros_length]
  have hle : (natDigitChars 10 (k % 1000000)).length ≤ 6 :=
    natDigitChars_len_le (by omega) (by omega) (Nat.mod_lt _ (by omega))
  omega

theorem digitsVal_fmt6 (na : Nat) :
    digitsVal 10 ((natDigitChars 10 (na / 1000000) ++
      leftPadZeros 6 (natDigitChars 10 (na % 1000000))).map decCharVal) = na := by
  rw [List.map_append, digitsVal_append, List.length_map, fracLen6,
    digitsVal_leftPad 6 _ decCharVal (by decide),
    digitsVal_natDigitChars (by omega) decCharVal
      (fun d hd => decCharVal_digitCharLower hd) (na / 1000000),
    digitsVal_natDigitChars (by omega) decCharVal
      (fun d hd => decCharVal_digitCharLower hd) (na % 1000000)]
  have h6 : (10 : Nat) ^ 6 = 1000000 := by norm_num
  rw [h6]
  omega

theorem floatLitVal_noexp (neg : Bool) (intd fracd : List Char) :
    floatLitVal neg intd fracd false false [] =
      (if neg
        then -((digitsVal 10 ((intd ++ fracd).map decCharVal) : Rat) /
          (10 : Rat) ^ fracd.length)
        else (digitsVal 10 ((intd ++ fracd).map decCharVal) : Rat) /
          (10 : Rat) ^ fracd.length) := rfl

theorem floatLitVal_fmt_pos (na : Nat) :
    floatLitVal false (natDigitChars 10 (na / 1000000))
      (leftPadZeros 6 (natDigitChars 10 (na % 1000000))) false false [] =
      (na : Rat) / 1000000 := by
  rw [floatLitVal_noexp, digitsVal_fmt6, fracLen6]
  norm_num

theorem floatLitVal_fmt_neg (na : Nat) :
    floatLitVal true (natDigitChars 10 (na / 1000000))
      (leftPadZeros 6 (natDigitChars 10 (na % 1000000))) false false [] =
      -((na : Rat) / 1000000) := by
  rw [floatLitVal_noexp, digitsVal_fmt6, fracLen6]
  norm_num

theorem parse_float_of_rfv {s : List Char} {q : Rat} {u : List Char}
    (hrec : recognize_float_val s = some (q, u)) {c : Bool} {r2 : List Char}
    (hdel : field_delim u = some (c, r2)) :
    parse_float s = some ((Value.Float (FloatVal.fin q), c), r2) := by
  unfold parse_float double
  rw [hrec]
  dsimp only
  rw [hdel]
  rfl

/-- Re-parsing a rendered `{:.6}` decimal: the field parses as a `Float`
whose value is the rendered integer over `10^6`. -/
theorem csv_field_print_fin (n : Int) {rest : List Char} {c : Bool}
    {r2 : List Char} (hdel : field_delim rest = some (c, r2)) :
    csv_field (fmtFixed6Int n ++ rest) =
      some ((Value.Float (FloatVal.fin ((n : Rat) / 1000000)), c), r2) := by
  obtain ⟨ch, t, rfl, hchd, hche, hchE, hchp, hchm⟩ := field_delim_head_traits hdel
  have hine : natDigitChars 10 (n.natAbs / 1000000) ≠ [] := natDigitChars_ne_nil
  have hiall := natDigitChars10_all_digit (n := n.natAbs / 1000000)
  have hfall : ∀ c0 ∈ leftPadZeros 6 (natDigitChars 10 (n.natAbs % 1000000)),
      Char.isDigit c0 = true :=
    leftPadZeros_all (by decide) natDigitChars10_all_digit
  obtain ⟨i0, it, hInt⟩ :
      ∃ i0 it, natDigitChars 10 (n.natAbs / 1000000) = i0 :: it := by
    rcases hI : natDigitChars 10 (n.natAbs / 1000000) with - | ⟨i0, it⟩
    · exact absurd hI natDigitChars_ne_nil
    · exact ⟨i0, it, rfl⟩
  have hi0 : Char.isDigit i0 = true := hiall i0 (by rw [hInt]; simp)
  by_cases hneg : n < 0
  · have hfm : fmtFixed6Int n ++ ch :: t =
        '-' :: (natDigitChars 10 (n.natAbs / 1000000) ++
          '.' :: (leftPadZeros 6 (natDigitChars 10 (n.natAbs % 1000000)) ++ ch :: t)) := by
      unfold fmtFixed6Int
      rw [if_pos hneg]
      simp
    rw [hfm]
    have h1 : parse_string ('-' :: (natDigitChars 10 (n.natAbs / 1000000) ++
        '.' :: (leftPadZeros 6 (natDigitChars 10 (n.natAbs % 1000000)) ++ ch :: t))) =
        none := parse_string_none_of_head (by simp)
    rw [csv_field_of_float h1 (parse_hex_dash _)]
    have hrfv := rfvAfterSign_print true hine hiall hfall hchd hche hchE t
    have hrec : recognize_float_val ('-' :: (natDigitChars 10 (n.natAbs / 1000000) ++
        '.' :: (leftPadZeros 6 (natDigitChars 10 (n.natAbs % 1000000)) ++ ch :: t))) =
        some (floatLitVal true (natDigitChars 10 (n.natAbs / 1000000))
          (leftPadZeros 6 (natDigitChars 10 (n.natAbs % 1000000))) false false [],
          ch :: t) := by
      unfold recognize_float_val
      exact hrfv
    have hv : floatLitVal true (natDigitChars 10 (n.natAbs / 1000000))
        (leftPadZeros 6 (natDigitChars 10 (n.natAbs % 1000000))) false false [] =
        (n : Rat) / 1000000 := by
      rw [floatLitVal_fmt_neg]
      have hcast : ((n.natAbs : Nat) : Rat) = -(n : Rat) := by
        rw [Nat.cast_natAbs]
        exact_mod_cast abs_of_neg hneg
      rw [hcast]
      ring
    rw [parse_float_of_rfv hrec hdel, hv]
  · have hfm : fmtFixed6Int n ++ ch :: t =
        natDigitChars 10 (n.natAbs / 1000000) ++
          '.' :: (leftPadZeros 6 (natDigitChars 10 (n.natAbs % 1000000)) ++ ch :: t) := by
      unfold fmtFixed6Int
      rw [if_neg hneg]
      simp
    rw [hfm]
    have h1 : parse_string (natDigitChars 10 (n.natAbs / 1000000) ++
        '.' :: (leftPadZeros 6 (natDigitChars 10 (n.natAbs % 1000000)) ++ ch :: t)) =
        none := by
      rw [hInt, List.cons_append]
      refine parse_string_none_of_head ?_
      have : i0 ≠ '"' := by
        intro hq
        rw [hq] at hi0
        exact absurd hi0 (by decide)
      simpa using this
    have h2 : parse_hex (natDigitChars 10 (n.natAbs / 1000000) ++
        '.' :: (leftPadZeros 6 (natDigitChars 10 (n.natAbs % 1000000)) ++ ch :: t)) =
        none := by
      have hallhex : ∀ c0 ∈ natDigitChars 10 (n.natAbs / 1000000),
          isHexDigitCh c0 = true := by
        intro c0 hc0
        have hd := hiall c0 hc0
        unfold isHexDigitCh
        rw [hd]
        rfl
      obtain ⟨hh1, hh2⟩ := takeWhile_boundary (p := isHexDigitCh) hallhex
        (x := '.') (by decide)
        (leftPadZeros 6 (natDigitChars 10 (n.natAbs % 1000000)) ++ ch :: t)
      have hdig : hex_digit1 (natDigitChars 10 (n.natAbs / 1000000) ++
          '.' :: (leftPadZeros 6 (natDigitChars 10 (n.natAbs % 1000000)) ++ ch :: t)) =
          some (natDigitChars 10 (n.natAbs / 1000000),
            '.' :: (leftPadZeros 6 (natDigitChars 10 (n.natAbs % 1000000)) ++ ch :: t)) := by
        unfold hex_digit1 takeWhile1
        rw [hh1, hh2, hInt]
      unfold parse_hex
      rw [hdig]
      dsimp only
      rw [field_delim_dot]
    rw [csv_field_of_float h1 h2]
    have hrfv := rfvAfterSign_print false hine hiall hfall hchd hche hchE t
    have hrec : recognize_float_val (natDigitChars 10 (n.natAbs / 1000000) ++
        '.' :: (leftPadZeros 6 (natDigitChars 10 (n.natAbs % 1000000)) ++ ch :: t)) =
        some (floatLitVal false (natDigitChars 10 (n.natAbs / 1000000))
          (leftPadZeros 6 (natDigitChars 10 (n.natAbs % 1000000))) false false [],
          ch :: t) := by
      unfold recognize_float_val
      rw [hInt, List.cons_append,
        optSign_of_head (by intro hq; rw [hq] at hi0; exact absurd hi0 (by decide))
          (by intro hq; rw [hq] at hi0; exact absurd hi0 (by decide))]
      dsimp only
      rw [← List.cons_append, ← hInt]
      exact hrfv
    have hv : floatLitVal false (natDigitChars 10 (n.natAbs / 1000000))
        (leftPadZeros 6 (natDigitChars 10 (n.natAbs % 1000000))) false false [] =
        (n : Rat) / 1000000 := by
      rw [floatLitVal_fmt_pos]
      have hcast : ((n.natAbs : Nat) : Rat) = (n : Rat) := by
        rw [Nat.cast_natAbs]
        exact_mod_cast abs_of_nonneg (not_lt.mp hneg)
      rw [hcast]
    rw [parse_float_of_rfv hrec hdel, hv]

/-- Any canonical value's rendering re-parses to the value itself, with the
delimiter's flag and rest. -/
theorem csv_field_print {v : Value} (hv : valueCanonicalB v = true)
    {rest : List Char} {c : Bool} {r2 : List Char}
    (hdel : field_delim rest = some (c, r2)) :
    csv_field (fmtValue v ++ rest) = some ((v, c), r2) := by
  match v with
  | Value.String t =>
    have ht : '"' ∉ t := by simpa [valueCanonicalB] using hv
    exact csv_field_print_string ht hdel
  | Value.Hex h w =>
    simp only [valueCanonicalB, Bool.and_eq_true, decide_eq_true_eq] at hv
    exact csv_field_print_hex hv.1.1 hv.1.2 hv.2 hdel
  | Value.Float (FloatVal.nan pos) =>
    have hp : pos = true := by simpa [valueCanonicalB, floatCanonicalB] using hv
    rw [hp]
    exact csv_field_print_nan hdel
  | Value.Float (FloatVal.inf pos) =>
    have hp : pos = true := by simpa [valueCanonicalB, floatCanonicalB] using hv
    rw [hp]
    exact csv_field_print_inf hdel
  | Value.Float (FloatVal.fin q) =>
    have hq : (q * 1000000).den = 1 := by
      simpa [valueCanonicalB, floatCanonicalB] using hv
    have hfix : fmtValue (Value.Float (FloatVal.fin q)) =
        fmtFixed6Int ((q * 1000000).num) := by
      show fmtFixed6 q = _
      unfold fmtFixed6
      rw [roundHalfEven_of_den_one hq]
    rw [hfix, csv_field_print_fin ((q * 1000000).num) hdel]
    have hnum : (((q * 1000000).num : Int) : Rat) = q * 1000000 := by
      have hnd := Rat.num_div_den (q * 1000000)
      rw [hq] at hnd
      simpa using hnd
    have hval : (((q * 1000000).num : Int) : Rat) / 1000000 = q := by
      rw [hnum]
      field_simp
    rw [hval]

/-! ### Re-parsing a rendered row -/

/-- The field/flag pairs `many1(csv_field)` produces on a rendered row
without a trailing comma: every field but the last is followed by a comma. -/
def pairsNTC : List Value → List (Value × Bool)
  | [] => []
  | [v] => [(v, false)]
  | v :: vt => (v, true) :: pairsNTC vt

/-- A row the serializer renders into text the row grammar reads back
identically: at least one field, all canonical. -/
def rowCanonicalB (r : Row) : Bool :=
  decide (r.values ≠ []) && r.values.all valueCanonicalB

theorem many0C_none {α : Type} {p : P α} (hp : Consuming p) {s : List Char}
    (h : p s = none) : many0C p s = ([], s) := by
  rw [many0C_unfold hp s, h]

theorem many0C_cons {α : Type} {p : P α} (hp : Consuming p) {s : List Char}
    {a : α} {r : List Char} (h : p s = some (a, r)) :
    many0C p s = (a :: (many0C p r).1, (many0C p r).2) := by
  rw [many0C_unfold hp s, h]

theorem many1C_eq {α : Type} {p : P α} {s : List Char} {a : α} {r : List Char}
    (h : p s = some (a, r)) :
    many1C p s = some (a :: (many0C p r).1, (many0C p r).2) := by
  unfold many1C
  rw [h]

theorem fields_print_tc {stop : List Char} (hfail : csv_field stop = none) :
    ∀ vs : List Value, (∀ v ∈ vs, valueCanonicalB v = true) →
      many0C csv_field (((vs.map fmtValue).map (fun v => v ++ [','])).flatten ++ stop) =
        (vs.map (fun v => (v, true)), stop) := by
  intro vs
  induction vs with
  | nil =>
    intro _
    simpa using many0C_none csv_field_consuming hfail
  | cons v vt ih =>
    intro hvs
    have hsh : ((((v :: vt).map fmtValue).map (fun x => x ++ [','])).flatten ++ stop) =
        fmtValue v ++ (',' :: (((vt.map fmtValue).map (fun x => x ++ [','])).flatten ++ stop)) := by
      simp
    rw [hsh, many0C_cons csv_field_consuming
      (csv_field_print (hvs v (by simp)) (field_delim_comma_eq _)),
      ih (fun w hw => hvs w (by simp [hw]))]
    rfl

theorem fields_print_tc1 {vs : List Value} (hne : vs ≠ [])
    (hvs : ∀ v ∈ vs, valueCanonicalB v = true) {stop : List Char}
    (hfail : csv_field stop = none) :
    many1C csv_field (((vs.map fmtValue).map (fun v => v ++ [','])).flatten ++ stop) =
      some (vs.map (fun v => (v, true)), stop) := by
  rcases vs with - | ⟨v, vt⟩
  · exact absurd rfl hne
  · have hsh : ((((v :: vt).map fmtValue).map (fun x => x ++ [','])).flatten ++ stop) =
        fmtValue v ++ (',' :: (((vt.map fmtValue).map (fun x => x ++ [','])).flatten ++ stop)) := by
      simp
    rw [hsh, many1C_eq
      (csv_field_print (hvs v (by simp)) (field_delim_comma_eq _)),
      fields_print_tc hfail vt (fun w hw => hvs w (by simp [hw]))]
    rfl

theorem fields_print_ntc0 {stop : List Char} (hfail : csv_field stop = none)
    (hdel : field_delim stop = some (false, stop)) :
    ∀ vs : List Value, (∀ v ∈ vs, valueCanonicalB v = true) →
      many0C csv_field (commaSep (vs.map fmtValue) ++ stop) = (pairsNTC vs, stop) := by
  intro vs
  induction vs with
  | nil =>
    intro _
    simpa [commaSep, pairsNTC] using many0C_none csv_field_consuming hfail
  | cons v vt ih =>
    intro hvs
    rcases vt with - | ⟨v2, vt2⟩
    · rw [show commaSep ([v].map fmtValue) ++ stop = fmtValue v ++ stop from rfl,
        many0C_cons csv_field_consuming (csv_field_print (hvs v (by simp)) hdel),
        many0C_none csv_field_consuming hfail]
      rfl
    · have hsh : commaSep ((v :: v2 :: vt2).map fmtValue) ++ stop =
          fmtValue v ++ (',' :: (commaSep ((v2 :: vt2).map fmtValue) ++ stop)) := by
        rw [show commaSep ((v :: v2 :: vt2).map fmtValue) =
            fmtValue v ++ ',' :: commaSep ((v2 :: vt2).map fmtValue) from rfl]
        simp
      rw [hsh, many0C_cons csv_field_consuming
        (csv_field_print (hvs v (by simp)) (field_delim_comma_eq _)),
        ih (fun w hw => hvs w (by simp [hw]))]
      rfl

theorem fields_print_ntc1 {vs : List Value} (hne : vs ≠ [])
    (hvs : ∀ v ∈ vs, valueCanonicalB v = true) {stop : List Char}
    (hfail : csv_field stop = none)
    (hdel : field_delim stop = some (false, stop)) :
    many1C csv_field (commaSep (vs.map fmtValue) ++ stop) = some (pairsNTC vs, stop) := by
  rcases vs with - | ⟨v, vt⟩
  · exact absurd rfl hne
  · rcases vt with - | ⟨v2, vt2⟩
    · rw [show commaSep ([v].map fmtValue) ++ stop = fmtValue v ++ stop from rfl,
        many1C_eq (csv_field_print (hvs v (by simp)) hdel),
        many0C_none csv_field_consuming hfail]
      rfl
    · have hsh : commaSep ((v :: v2 :: vt2).map fmtValue) ++ stop =
          fmtValue v ++ (',' :: (commaSep ((v2 :: vt2).map fmtValue) ++ stop)) := by
        rw [show commaSep ((v :: v2 :: vt2).map fmtValue) =
            fmtValue v ++ ',' :: commaSep ((v2 :: vt2).map fmtValue) from rfl]
        simp
      rw [hsh, many1C_eq
        (csv_field_print (hvs v (by simp)) (field_delim_comma_eq _)),
        fields_print_ntc0 hfail hdel (v2 :: vt2) (fun w hw => hvs w (by simp [hw]))]
      rfl

theorem pairsNTC_map_fst : ∀ vs : List Value, (pairsNTC vs).map Prod.fst = vs := by
  intro vs
  induction vs with
  | nil => rfl
  | cons v vt ih =>
    rcases vt with - | ⟨v2, vt2⟩
    · rfl
    · rw [show pairsNTC (v :: v2 :: vt2) = (v, true) :: pairsNTC (v2 :: vt2) from rfl,
        List.map_cons, ih]

theorem pairsNTC_getLastD : ∀ vs : List Value, vs ≠ [] → ∀ d : Bool,
    ((pairsNTC vs).map Prod.snd).getLastD d = false := by
  intro vs
  induction vs with
  | nil => intro h; exact absurd rfl h
  | cons v vt ih =>
    intro _ d
    rcases vt with - | ⟨v2, vt2⟩
    · rfl
    · rw [show pairsNTC (v :: v2 :: vt2) = (v, true) :: pairsNTC (v2 :: vt2) from rfl]
      simp only [List.map_cons, List.getLastD_cons]
      exact ih (by simp) true

theorem map_pair_true_getLastD : ∀ vs : List Value, vs ≠ [] → ∀ d : Bool,
    ((vs.map (fun v => (v, true))).map Prod.snd).getLastD d = true := by
  intro vs
  induction vs with
  | nil => intro h; exact absurd rfl h
  | cons v vt ih =>
    intro _ d
    rcases vt with - | ⟨v2, vt2⟩
    · rfl
    · show ((((v2 :: vt2).map (fun v => (v, true))).map Prod.snd)).getLastD true = true
      exact ih (by simp) true

theorem map_pair_true_fst :
    ∀ vs : List Value, (vs.map (fun v => (v, true))).map Prod.fst = vs := by
  intro vs
  induction vs with
  | nil => rfl
  | cons v vt ih =>
    simp only [List.map_cons]
    rw [ih]

theorem joinN_succ_cons (n : Nat) :
    joinN (n + 1) line_return = '\r' :: '\n' :: joinN n line_return := by
  unfold joinN line_return
  rw [List.replicate_succ]
  rfl

theorem rowTail_print {vals : List Value} {comma : Bool} {tn : Nat}
    {after : List Char} (hler : lineEndingRun after = (0, after))
    (hlast : 1 ≤ tn ∨ ∃ u, after = ';' :: u) :
    rowTail vals comma (joinN tn line_return ++ after) =
      some (⟨vals, comma, tn⟩, after) := by
  unfold rowTail
  rw [lineEndingRun_join, hler]
  dsimp only
  rw [Nat.zero_add]
  rcases tn with - | k
  · rcases hlast with hge | ⟨u, rfl⟩
    · exact absurd hge (by omega)
    · rfl
  · rfl

/-- A canonical row's rendering, followed by text that neither extends the
line-break run nor (when the row has no trailing line breaks) fails the
lookahead, re-parses to the row itself. -/
theorem csv_row_print {r : Row} (hro : rowCanonicalB r = true)
    {after : List Char} (hler : lineEndingRun after = (0, after))
    (hlast : 1 ≤ r.trailing_newlines ∨ ∃ u, after = ';' :: u) :
    csv_row (rowBytes r ++ after) = some (r, after) := by
  rw [rowCanonicalB, Bool.and_eq_true, decide_eq_true_eq, List.all_eq_true] at hro
  obtain ⟨hvne, hvall⟩ := hro
  have hvcan : ∀ v ∈ r.values, valueCanonicalB v = true := fun v hv => hvall v hv
  have hstop : csv_field (joinN r.trailing_newlines line_return ++ after) = none ∧
      field_delim (joinN r.trailing_newlines line_return ++ after) =
        some (false, joinN r.trailing_newlines line_return ++ after) := by
    rcases htn : r.trailing_newlines with - | k
    · rw [htn] at hlast
      rcases hlast with hge | ⟨u, hu⟩
      · exact absurd hge (by omega)
      · rw [hu]
        exact ⟨csv_field_semi u, field_delim_semi_eq u⟩
    · rw [joinN_succ_cons, List.cons_append, List.cons_append]
      exact ⟨csv_field_crlf _, field_delim_crlf_eq _⟩
  rcases hstop with ⟨hfail, hdel⟩
  unfold csv_row
  rcases hc : r.trailing_comma with - | -
  · have hsh : rowBytes r ++ after =
        commaSep (r.values.map fmtValue) ++
          (joinN r.trailing_newlines line_return ++ after) := by
      unfold rowBytes
      rw [hc]
      simp only [Bool.false_eq_true, if_false]
      rw [List.append_assoc]
    rw [hsh, fields_print_ntc1 hvne hvcan hfail hdel]
    dsimp only
    rw [pairsNTC_map_fst, pairsNTC_getLastD r.values hvne false,
      rowTail_print hler hlast, ← hc]
  · have hsh : rowBytes r ++ after =
        ((r.values.map fmtValue).map (fun v => v ++ [','])).flatten ++
          (joinN r.trailing_newlines line_return ++ after) := by
      unfold rowBytes
      rw [hc]
      simp only [if_true]
      rw [List.append_assoc]
    rw [hsh, fields_print_tc1 hvne hvcan hfail]
    dsimp only
    rw [map_pair_true_fst r.values,
      map_pair_true_getLastD r.values hvne false,
      rowTail_print hler hlast, ← hc]

/-! ### Re-parsing a rendered section and document -/

/-- A value whose rendering never begins with a line break (used to show the
line-break run before the next row stops in the right place). -/
theorem fmtFixed6Int_head (n : Int) :
    ∃ c0 t0, fmtFixed6Int n = c0 :: t0 ∧ c0 ≠ '\n' ∧ c0 ≠ '\r' := by
  unfold fmtFixed6Int
  by_cases hneg : n < 0
  · rw [if_pos hneg]
    exact ⟨'-', natDigitChars 10 (n.natAbs / 1000000) ++
      '.' :: leftPadZeros 6 (natDigitChars 10 (n.natAbs % 1000000)),
      by simp, by decide, by decide⟩
  · rw [if_neg hneg]
    rcases hI : natDigitChars 10 (n.natAbs / 1000000) with - | ⟨c0, ct⟩
    · exact absurd hI natDigitChars_ne_nil
    · have hc0 : Char.isDigit c0 = true :=
        natDigitChars10_all_digit c0 (by rw [hI]; simp)
      refine ⟨c0, ct ++ '.' :: leftPadZeros 6 (natDigitChars 10 (n.natAbs % 1000000)),
        by simp, ?_, ?_⟩
      · intro hq
        rw [hq] at hc0
        exact absurd hc0 (by decide)
      · intro hq
        rw [hq] at hc0
        exact absurd hc0 (by decide)

theorem fmtValue_head {v : Value} (hv : valueCanonicalB v = true) :
    ∃ c0 t0, fmtValue v = c0 :: t0 ∧ c0 ≠ '\n' ∧ c0 ≠ '\r' := by
  match v with
  | Value.String t => exact ⟨'"', t ++ ['"'], rfl, by decide, by decide⟩
  | Value.Hex h w =>
    simp only [valueCanonicalB, Bool.and_eq_true, decide_eq_true_eq] at hv
    obtain ⟨hne, hall, -, -⟩ := fmtHex_spec hv.1.1 hv.2
    rcases hf : fmtValue (Value.Hex h w) with - | ⟨c0, t0⟩
    · exact absurd hf hne
    · have hc0 : isHexDigitCh c0 = true := hall c0 (by rw [hf]; simp)
      refine ⟨c0, t0, rfl, ?_, ?_⟩
      · intro hq
        rw [hq] at hc0
        exact absurd hc0 (by decide)
      · intro hq
        rw [hq] at hc0
        exact absurd hc0 (by decide)
  | Value.Float (FloatVal.nan pos) =>
    have hp : pos = true := by simpa [valueCanonicalB, floatCanonicalB] using hv
    rw [hp]
    exact ⟨'n', ['a', 'n'], rfl, by decide, by decide⟩
  | Value.Float (FloatVal.inf pos) =>
    have hp : pos = true := by simpa [valueCanonicalB, floatCanonicalB] using hv
    rw [hp]
    exact ⟨'i', ['n', 'f'], rfl, by decide, by decide⟩
  | Value.Float (FloatVal.fin q) =>
    exact fmtFixed6Int_head (roundHalfEven (q * 1000000))

theorem rowBytes_decomp {r : Row} {v : Value} {vt : List Value}
    (hv : r.values = v :: vt) : ∃ rest, rowBytes r = fmtValue v ++ rest := by
  unfold rowBytes
  rw [hv]
  rcases hc : r.trailing_comma with - | -
  · rcases vt with - | ⟨v2, vt2⟩
    · exact ⟨joinN r.trailing_newlines line_return, by simp [commaSep]⟩
    · refine ⟨',' :: (commaSep ((v2 :: vt2).map fmtValue) ++
        joinN r.trailing_newlines line_return), ?_⟩
      simp only [Bool.false_eq_true, if_false, List.map_cons]
      rw [show commaSep (fmtValue v :: fmtValue v2 :: (vt2.map fmtValue)) =
          fmtValue v ++ ',' :: commaSep (fmtValue v2 :: (vt2.map fmtValue)) from rfl]
      simp
  · refine ⟨',' :: (((vt.map fmtValue).map (fun x => x ++ [','])).flatten ++
      joinN r.trailing_newlines line_return), ?_⟩
    simp

theorem rowBytes_head {r : Row} (hro : rowCanonicalB r = true) :
    ∃ c0 tt, rowBytes r = c0 :: tt ∧ c0 ≠ '\n' ∧ c0 ≠ '\r' := by
  rw [rowCanonicalB, Bool.and_eq_true, decide_eq_true_eq, List.all_eq_true] at hro
  obtain ⟨hvne, hvall⟩ := hro
  rcases hv : r.values with - | ⟨v, vt⟩
  · exact absurd hv hvne
  · obtain ⟨c0, t0, hf, hn1, hn2⟩ := fmtValue_head (hvall v (by rw [hv]; simp))
    obtain ⟨rest, hrb⟩ := rowBytes_decomp hv
    exact ⟨c0, t0 ++ rest, by rw [hrb, hf]; rfl, hn1, hn2⟩

/-- A nonempty run of canonical rows in which every row except the last has
at least one trailing line break (otherwise `many1(csv_row)` could not stop
between two rows). -/
def rowsCanonicalB : List Row → Bool
  | [] => false
  | [r] => rowCanonicalB r
  | r :: rs => rowCanonicalB r && decide (1 ≤ r.trailing_newlines) && rowsCanonicalB rs

theorem rowsCanonical_head {r : Row} {rt : List Row}
    (h : rowsCanonicalB (r :: rt) = true) : rowCanonicalB r = true := by
  rcases rt with - | ⟨r2, rt2⟩
  · simpa [rowsCanonicalB] using h
  · rw [show rowsCanonicalB (r :: r2 :: rt2) = (rowCanonicalB r &&
      decide (1 ≤ r.trailing_newlines) && rowsCanonicalB (r2 :: rt2)) from rfl,
      Bool.and_eq_true, Bool.and_eq_true] at h
    exact h.1.1

theorem rows_after_props {rt : List Row} (u : List Char)
    (h : rt = [] ∨ rowsCanonicalB rt = true) :
    lineEndingRun ((rt.map rowBytes).flatten ++ ';' :: u) =
      (0, (rt.map rowBytes).flatten ++ ';' :: u) := by
  rcases h with rfl | hcan
  · exact lineEndingRun_zero_of_head (by decide) (by decide) u
  · rcases rt with - | ⟨r2, rt2⟩
    · exact lineEndingRun_zero_of_head (by decide) (by decide) u
    · obtain ⟨c0, tt, hrb, hn1, hn2⟩ := rowBytes_head (rowsCanonical_head hcan)
      have hsh : ((r2 :: rt2).map rowBytes).flatten ++ ';' :: u =
          c0 :: (tt ++ ((rt2.map rowBytes).flatten ++ ';' :: u)) := by
        simp only [List.map_cons, List.flatten_cons]
        rw [hrb]
        simp
      rw [hsh, lineEndingRun_zero_of_head hn1 hn2]

theorem rows_head_step {r : Row} {rt : List Row}
    (hcan : rowsCanonicalB (r :: rt) = true) (u : List Char) :
    csv_row (rowBytes r ++ ((rt.map rowBytes).flatten ++ ';' :: u)) =
      some (r, (rt.map rowBytes).flatten ++ ';' :: u) ∧
    (rt = [] ∨ rowsCanonicalB rt = true) := by
  have hro := rowsCanonical_head hcan
  have htail : rt = [] ∨ rowsCanonicalB rt = true := by
    rcases rt with - | ⟨r2, rt2⟩
    · exact Or.inl rfl
    · refine Or.inr ?_
      rw [show rowsCanonicalB (r :: r2 :: rt2) = (rowCanonicalB r &&
        decide (1 ≤ r.trailing_newlines) && rowsCanonicalB (r2 :: rt2)) from rfl,
        Bool.and_eq_true, Bool.and_eq_true] at hcan
      exact hcan.2
  have hlast : 1 ≤ r.trailing_newlines ∨
      ∃ u2, (rt.map rowBytes).flatten ++ ';' :: u = ';' :: u2 := by
    rcases rt with - | ⟨r2, rt2⟩
    · exact Or.inr ⟨u, by simp⟩
    · refine Or.inl ?_
      rw [show rowsCanonicalB (r :: r2 :: rt2) = (rowCanonicalB r &&
        decide (1 ≤ r.trailing_newlines) && rowsCanonicalB (r2 :: rt2)) from rfl,
        Bool.and_eq_true, Bool.and_eq_true, decide_eq_true_eq] at hcan
      exact hcan.1.2
  exact ⟨csv_row_print hro (rows_after_props u htail) hlast, htail⟩

theorem rows_print0 (u : List Char) :
    ∀ rows : List Row, (rows = [] ∨ rowsCanonicalB rows = true) →
      many0C csv_row ((rows.map rowBytes).flatten ++ ';' :: u) = (rows, ';' :: u) := by
  intro rows
  induction rows with
  | nil =>
    intro _
    simpa using many0C_none csv_row_consuming (csv_row_semi u)
  | cons r rt ih =>
    intro h
    have hcan : rowsCanonicalB (r :: rt) = true := by
      rcases h with h1 | h2
      · exact absurd h1 (by simp)
      · exact h2
    obtain ⟨hrow, htail⟩ := rows_head_step hcan u
    have hsh : ((r :: rt).map rowBytes).flatten ++ ';' :: u =
        rowBytes r ++ ((rt.map rowBytes).flatten ++ ';' :: u) := by
      simp
    rw [hsh, many0C_cons csv_row_consuming hrow, ih htail]

theorem rows_print1 {rows : List Row} (hcan : rowsCanonicalB rows = true)
    (u : List Char) :
    many1C csv_row ((rows.map rowBytes).flatten ++ ';' :: u) =
      some (rows, ';' :: u) := by
  rcases rows with - | ⟨r, rt⟩
  · exact absurd hcan (by simp [rowsCanonicalB])
  · obtain ⟨hrow, htail⟩ := rows_head_step hcan u
    have hsh : ((r :: rt).map rowBytes).flatten ++ ';' :: u =
        rowBytes r ++ ((rt.map rowBytes).flatten ++ ';' :: u) := by
      simp
    rw [hsh, many1C_eq hrow, rows_print0 u rt htail]

/-- A section the serializer renders into text `section_parser` reads back
identically: the code round-trips through `from_code`, is a nonempty
alphanumeric string, and the rows are canonical. -/
def sectionCanonicalB (sec : Section) : Bool :=
  decide (SectionIdentifier.from_code (SectionIdentifier.to_code sec.identifier) =
    sec.identifier) &&
  decide (SectionIdentifier.to_code sec.identifier ≠ []) &&
  (SectionIdentifier.to_code sec.identifier).all Char.isAlphanum &&
  rowsCanonicalB sec.rows

/-- A document the serializer renders into text the parser reads back
identically: at least one header, headers free of line breaks, canonical
sections. -/
def canonicalB (m : MagicQShowfile) : Bool :=
  decide (m.headers ≠ []) &&
  m.headers.all (fun h0 => h0.all notCR_LF) &&
  m.sections.all sectionCanonicalB

theorem alphanumeric1_exact {d : List Char} (hne : d ≠ [])
    (hall : ∀ ch ∈ d, Char.isAlphanum ch = true) {x : Char}
    (hx : Char.isAlphanum x = false) (y : List Char) :
    alphanumeric1 (d ++ x :: y) = some (d, x :: y) := by
  obtain ⟨htw, hdw⟩ := takeWhile_boundary hall hx y
  unfold alphanumeric1 takeWhile1
  rw [htw, hdw]
  rcases d with - | ⟨d0, dt⟩
  · exact absurd rfl hne
  · rfl

theorem parse_section_identifier_exact {d : List Char} (hne : d ≠ [])
    (hall : ∀ ch ∈ d, Char.isAlphanum ch = true) (y : List Char) :
    parse_section_identifier (d ++ ',' :: y) =
      some (SectionIdentifier.from_code d, ',' :: y) := by
  unfold parse_section_identifier
  rw [alphanumeric1_exact hne hall (by decide) y]
  rfl

theorem sectionAfterIdent_comma (i : SectionIdentifier) (r2 : List Char) :
    sectionAfterIdent i (',' :: r2) = sectionAfterComma i r2 := rfl

theorem sectionAfterComma_eq {i : SectionIdentifier} {r2 : List Char}
    {rows : List Row} {u : List Char}
    (hm : many1C csv_row r2 = some (rows, ';' :: u)) :
    sectionAfterComma i r2 =
      some (⟨i, rows, (lineEndingRun u).1⟩, (lineEndingRun u).2) := by
  unfold sectionAfterComma
  rw [hm]
  rfl

theorem parse_section_print {sec : Section} (hcan : sectionCanonicalB sec = true)
    {rest : List Char} (hler : lineEndingRun rest = (0, rest)) :
    parse_section (sectionBytes sec ++ rest) = some (sec, rest) := by
  rw [sectionCanonicalB, Bool.and_eq_true, Bool.and_eq_true, Bool.and_eq_true,
    decide_eq_true_eq, decide_eq_true_eq, List.all_eq_true] at hcan
  obtain ⟨⟨⟨hfc, hne⟩, hall⟩, hrows⟩ := hcan
  have hsh : sectionBytes sec ++ rest =
      SectionIdentifier.to_code sec.identifier ++ ',' ::
        ((sec.rows.map rowBytes).flatten ++
          ';' :: (joinN sec.trailing_newlines line_return ++ rest)) := by
    unfold sectionBytes
    simp
  rw [hsh]
  unfold parse_section
  rw [parse_section_identifier_exact hne hall _]
  dsimp only
  rw [hfc, sectionAfterIdent_comma,
    sectionAfterComma_eq
      (rows_print1 hrows (joinN sec.trailing_newlines line_return ++ rest)),
    lineEndingRun_join, hler]
  dsimp only
  rw [Nat.zero_add]

theorem sectionBytes_ne_nil (sec : Section) : sectionBytes sec ≠ [] := by
  unfold sectionBytes
  simp

theorem sections_rest_ler : ∀ st : List Section,
    (∀ sec ∈ st, sectionCanonicalB sec = true) →
    lineEndingRun ((st.map sectionBytes).flatten) =
      (0, (st.map sectionBytes).flatten) := by
  intro st hcans
  rcases st with - | ⟨sec2, st2⟩
  · rfl
  · have hcan := hcans sec2 (by simp)
    rw [sectionCanonicalB, Bool.and_eq_true, Bool.and_eq_true, Bool.and_eq_true,
      decide_eq_true_eq, decide_eq_true_eq, List.all_eq_true] at hcan
    obtain ⟨⟨⟨-, hne⟩, hall⟩, -⟩ := hcan
    rcases hcode : SectionIdentifier.to_code sec2.identifier with - | ⟨c0, ct⟩
    · exact absurd hcode hne
    · have hc0 : Char.isAlphanum c0 = true := hall c0 (by rw [hcode]; simp)
      have hsh : (((sec2 :: st2).map sectionBytes)).flatten =
          c0 :: (ct ++ ',' ::
            ((sec2.rows.map rowBytes).flatten ++
              ';' :: joinN sec2.trailing_newlines line_return ++
                ((st2.map sectionBytes).flatten))) := by
        simp only [List.map_cons, List.flatten_cons]
        unfold sectionBytes
        rw [hcode]
        simp
      rw [hsh, lineEndingRun_zero_of_head
        (fun hq => by rw [hq] at hc0; exact absurd hc0 (by decide))
        (fun hq => by rw [hq] at hc0; exact absurd hc0 (by decide))]

theorem sectionsTillEof_ne_eq (f : Nat) {s : List Char} (hne : s ≠ []) :
    sectionsTillEof (f + 1) s =
      (match parse_section s with
       | none => none
       | some (sec, r) => (sectionsTillEof f r).map (fun q => (sec :: q.1, q.2))) := by
  rcases s with - | ⟨c0, X⟩
  · exact absurd rfl hne
  · rfl

theorem sectionsTillEof_print : ∀ secs : List Section,
    (∀ sec ∈ secs, sectionCanonicalB sec = true) →
    ∀ fuel : Nat, ((secs.map sectionBytes).flatten).length < fuel →
      sectionsTillEof fuel ((secs.map sectionBytes).flatten) = some (secs, []) := by
  intro secs
  induction secs with
  | nil =>
    intro _ fuel hf
    rcases fuel with - | f
    · omega
    · rfl
  | cons sec st ih =>
    intro hcans fuel hf
    rcases fuel with - | f
    · omega
    · have hcanSec := hcans sec (by simp)
      have hcansTail : ∀ s2 ∈ st, sectionCanonicalB s2 = true :=
        fun s2 hs2 => hcans s2 (by simp [hs2])
      have hflat : ((sec :: st).map sectionBytes).flatten =
          sectionBytes sec ++ (st.map sectionBytes).flatten := by
        simp
      have hne : sectionBytes sec ++ (st.map sectionBytes).flatten ≠ [] := by
        intro hnil
        rcases List.append_eq_nil.mp hnil with ⟨h1, -⟩
        exact sectionBytes_ne_nil sec h1
      have hps := parse_section_print hcanSec (sections_rest_ler st hcansTail)
      have hlen : ((st.map sectionBytes).flatten).length < f := by
        rw [hflat, List.length_append] at hf
        have hpos : 0 < (sectionBytes sec).length :=
          List.length_pos.mpr (sectionBytes_ne_nil sec)
        omega
      rw [hflat, sectionsTillEof_ne_eq f hne, hps]
      dsimp only
      rw [ih hcansTail f hlen]
      rfl

theorem parse_header_crlf (t : List Char) : parse_header ('\r' :: t) = none := rfl

theorem parse_header_print {h0 : List Char} (hok : ∀ c ∈ h0, notCR_LF c = true)
    (rest : List Char) :
    parse_header ('\\' :: ' ' :: (h0 ++ '\r' :: '\n' :: rest)) = some (h0, rest) := by
  obtain ⟨htw, hdw⟩ :=
    takeWhile_boundary (p := notCR_LF) hok (x := '\r') (by decide) ('\n' :: rest)
  rw [show parse_header ('\\' :: ' ' :: (h0 ++ '\r' :: '\n' :: rest)) =
      headerAfterTag (h0 ++ '\r' :: '\n' :: rest) from rfl]
  unfold headerAfterTag not_line_ending
  rw [htw, hdw]
  rfl

theorem headers_print0 {stop : List Char} (hfail : parse_header stop = none) :
    ∀ hs : List (List Char), (∀ h0 ∈ hs, ∀ c ∈ h0, notCR_LF c = true) →
      many0C parse_header
        ((hs.map (fun h => '\\' :: ' ' :: (h ++ line_return))).flatten ++ stop) =
        (hs, stop) := by
  intro hs
  induction hs with
  | nil =>
    intro _
    simpa using many0C_none parse_header_consuming hfail
  | cons h0 ht ih =>
    intro hoks
    have hsh : (((h0 :: ht).map (fun h => '\\' :: ' ' :: (h ++ line_return))).flatten ++
        stop) =
        '\\' :: ' ' :: (h0 ++ '\r' :: '\n' ::
          ((ht.map (fun h => '\\' :: ' ' :: (h ++ line_return))).flatten ++ stop)) := by
      simp [line_return]
    rw [hsh, many0C_cons parse_header_consuming
      (parse_header_print (hoks h0 (by simp)) _),
      ih (fun g hg c hc => hoks g (by simp [hg]) c hc)]

theorem headers_print1 {hs : List (List Char)} (hne : hs ≠ [])
    (hoks : ∀ h0 ∈ hs, ∀ c ∈ h0, notCR_LF c = true) {stop : List Char}
    (hfail : parse_header stop = none) :
    many1C parse_header
      ((hs.map (fun h => '\\' :: ' ' :: (h ++ line_return))).flatten ++ stop) =
      some (hs, stop) := by
  rcases hs with - | ⟨h0, ht⟩
  · exact absurd rfl hne
  · have hsh : (((h0 :: ht).map (fun h => '\\' :: ' ' :: (h ++ line_return))).flatten ++
        stop) =
        '\\' :: ' ' :: (h0 ++ '\r' :: '\n' ::
          ((ht.map (fun h => '\\' :: ' ' :: (h ++ line_return))).flatten ++ stop)) := by
      simp [line_return]
    rw [hsh, many1C_eq (parse_header_print (hoks h0 (by simp)) _),
      headers_print0 hfail ht (fun g hg c hc => hoks g (by simp [hg]) c hc)]

/-- A canonical document's rendered text parses back to exactly the same
model, consuming the whole input. -/
theorem parse_showfile_print {m : MagicQShowfile} (hcan : canonicalB m = true) :
    parse_showfile (showfileBytes m) = some (m, []) := by
  rw [canonicalB, Bool.and_eq_true, Bool.and_eq_true, decide_eq_true_eq,
    List.all_eq_true, List.all_eq_true] at hcan
  obtain ⟨⟨hhne, hhok⟩, hsecs⟩ := hcan
  have hhok2 : ∀ h0 ∈ m.headers, ∀ c ∈ h0, notCR_LF c = true := by
    intro h0 hh c hc
    have := hhok h0 hh
    rw [List.all_eq_true] at this
    exact this c hc
  have hsecs2 : ∀ sec ∈ m.sections, sectionCanonicalB sec = true := hsecs
  have hsh : showfileBytes m =
      (m.headers.map (fun h => '\\' :: ' ' :: (h ++ line_return))).flatten ++
        ('\r' :: '\n' :: (m.sections.map sectionBytes).flatten) := rfl
  rw [hsh]
  unfold parse_showfile
  rw [headers_print1 hhne hhok2 (parse_header_crlf _)]
  dsimp only
  have hler2 : lineEndingRun ('\r' :: '\n' :: (m.sections.map sectionBytes).flatten) =
      (1, (m.sections.map sectionBytes).flatten) := by
    rw [show lineEndingRun ('\r' :: '\n' :: ((m.sections.map sectionBytes).flatten)) =
        ((lineEndingRun ((m.sections.map sectionBytes).flatten)).1 + 1,
         (lineEndingRun ((m.sections.map sectionBytes).flatten)).2) from by
      rw [lineEndingRun.eq_def]
      rfl]
    rw [sections_rest_ler m.sections hsecs2]
  rw [hler2]
  dsimp only
  rw [sectionsTillEof_print m.sections hsecs2
    (((m.sections.map sectionBytes).flatten).length + 1) (by omega)]

theorem rowCanonical_values_ne {r : Row} (h : rowCanonicalB r = true) :
    r.values ≠ [] := by
  rw [rowCanonicalB, Bool.and_eq_true, decide_eq_true_eq] at h
  exact h.1

theorem rowsCanonical_all : ∀ rows : List Row, rowsCanonicalB rows = true →
    ∀ row ∈ rows, rowCanonicalB row = true := by
  intro rows
  induction rows with
  | nil =>
    intro h
    exact absurd h (by simp [rowsCanonicalB])
  | cons r rt ih =>
    intro h row hrow
    rcases List.mem_cons.mp hrow with rfl | hmem
    · exact rowsCanonical_head h
    · rcases rt with - | ⟨r2, rt2⟩
      · simp at hmem
      · rw [show rowsCanonicalB (r :: r2 :: rt2) = (rowCanonicalB r &&
          decide (1 ≤ r.trailing_newlines) && rowsCanonicalB (r2 :: rt2)) from rfl,
          Bool.and_eq_true, Bool.and_eq_true] at h
        exact ih h.2 _ hmem

theorem canonical_rows_ne {m : MagicQShowfile} (h : canonicalB m = true) :
    ∀ sec ∈ m.sections, ∀ row ∈ sec.rows, row.values ≠ [] := by
  rw [canonicalB, Bool.and_eq_true, List.all_eq_true] at h
  intro sec hs row hr
  have hsec := h.2 sec hs
  rw [sectionCanonicalB, Bool.and_eq_true] at hsec
  exact rowCanonical_values_ne (rowsCanonical_all sec.rows hsec.2 row hr)

/-! ### Claim C1: round-trip -/

set_option maxHeartbeats 2000000 in
unseal Rat.mul Rat.inv Rat.add Rat.sub in
/-- C1, counterexample: the text `"\ h\n\nV,FF,0.5;"` is accepted by the
parser, but serializing the parsed model yields
`"\ h\r\n\r\nV,ff,0.500000;"` — the line endings are rewritten to CRLF, the
hex digits are lowercased, and the float is re-rendered with six decimals —
so `serialize(parse(T)) = T` fails for this accepted `T`. -/
theorem c1_counterexample :
    parse_showfile "\\ h\n\nV,FF,0.5;".data =
      some (⟨[['h']],
        [⟨SectionIdentifier.Version,
          [⟨[Value.Hex 255 2, Value.Float (FloatVal.fin (1 / 2))], false, 0⟩],
          0⟩]⟩, []) ∧
    showfile_writer
      ⟨[['h']],
        [⟨SectionIdentifier.Version,
          [⟨[Value.Hex 255 2, Value.Float (FloatVal.fin (1 / 2))], false, 0⟩],
          0⟩]⟩ =
      "\\ h\r\n\r\nV,ff,0.500000;".data ∧
    ("\\ h\r\n\r\nV,ff,0.500000;".data ≠ "\\ h\n\nV,FF,0.5;".data) :=
  ⟨by decide, by decide, by decide⟩

/-- C1 (amended): the round trip holds in the opposite composition and on
the canonical image.  For every canonical model `m` — nonempty headers free
of line breaks, and sections whose code round-trips through `from_code`, is
nonempty alphanumeric, and whose rows are nonempty, canonically rendered
values with a positive line-break count on every row but the last —
parsing the serialized text consumes it entirely and returns `m` itself;
consequently `serialize(parse(T)) = T` holds for every text `T` in the
serializer's image of canonical models.  This image inclusion is one
direction only: the canonical set is a proven-sufficient domain, not a
characterization of all texts the equation happens to fix. -/
theorem c1_roundtrip :
    ∀ m : MagicQShowfile, canonicalB m = true →
      parse_showfile (showfile_writer m) = some (m, []) ∧
      ∀ T : List Char, T = showfile_writer m →
        ∃ m2 : MagicQShowfile, parse_showfile T = some (m2, []) ∧
          showfile_writer m2 = T := by
  intro m hcan
  have hw : showfile_writer m = showfileBytes m :=
    showfile_writer_eq (canonical_rows_ne hcan)
  have hp : parse_showfile (showfile_writer m) = some (m, []) := by
    rw [hw]
    exact parse_showfile_print hcan
  refine ⟨hp, fun T hT => ⟨m, ?_, hT.symm⟩⟩
  rw [hT]
  exact hp

/-- A concrete canonical model exercising every value form: a quoted
string, a width-2 and a width-16 hex, a positive NaN, a positive infinity,
a finite float, a trailing-comma row, a multi-row section and an `Unknown`
section code. -/
def c1Model : MagicQShowfile :=
  ⟨[['h']],
    [⟨SectionIdentifier.Version,
      [⟨[Value.String ['a'], Value.Hex 255 2, Value.Float (FloatVal.nan true)],
        true, 1⟩,
       ⟨[Value.Float (FloatVal.fin (1 / 2)), Value.Float (FloatVal.inf true)],
        false, 0⟩], 2⟩,
     ⟨SectionIdentifier.Unknown ['Z'],
      [⟨[Value.Hex 0 16], false, 0⟩], 0⟩]⟩

set_option maxHeartbeats 1000000 in
unseal Rat.mul Rat.inv Rat.add Rat.sub in
theorem c1_witness :
    canonicalB c1Model = true ∧
    parse_showfile (showfile_writer c1Model) = some (c1Model, []) :=
  ⟨by decide, (c1_roundtrip c1Model (by decide)).1⟩

end MagicQ
